import Mathlib

/-!
Verification of the excerpted fragments of this repository: the folly
`Range.h` mutable-view operations, the HHVM JIT `ProfData` profile
registry, and the fizz TLS Encrypted-Client-Hello (ECH) module.
C++ code is shallowly embedded as executable Lean definitions over
`List Nat` byte/element sequences; `size_t` arithmetic is modelled with
explicit reduction modulo `2 ^ 64` where wrap-around is reachable.
-/

namespace Spec2Proof

deriving instance DecidableEq for Except

/-! ### folly/Range.h : `replaceAt` -/

/-- Model of `Range::replaceAt(pos, replacement)` (Range.h).  The view's
contents are a list; the result pairs the new contents with the C++
return value.  When `size() < pos + replacement.size()` the call fails
and the contents are untouched; otherwise `replacement` is copied over
the elements starting at `pos`. -/
def replaceAt (r : List Nat) (pos : Nat) (replacement : List Nat) :
    List Nat × Bool :=
  if r.length < pos + replacement.length then (r, false)
  else (r.take pos ++ replacement ++ r.drop (pos + replacement.length), true)

/-! ### folly/Range.h : `qfind` and `find` -/

/-- Model of the lazily computed Boyer-Moore skip value of `qfind`
(Range.h): starting from `s = 1`, increment while
`skip <= nsize_1 && needle[nsize_1 - skip] != lastNeedle`.
`fuel` bounds the iterations; `n1 + 1` is always enough. -/
def skipLoop (needle : List Nat) (last n1 : Nat) : Nat → Nat → Nat
  | 0, s => s
  | fuel + 1, s =>
    if s ≤ n1 ∧ needle.getD (n1 - s) 0 ≠ last then
      skipLoop needle last n1 fuel (s + 1)
    else s

/-- Skip value used by `qfind` when the pedestrian comparison fails. -/
def skipVal (needle : List Nat) : Nat :=
  skipLoop needle (needle.getD (needle.length - 1) 0) (needle.length - 1)
    (needle.length) 1

/-- Model of the pedestrian comparison loop of `qfind` (Range.h):
does `needle` match `hay` elementwise at offset `i`. -/
def matchesAt (hay needle : List Nat) (i : Nat) : Bool :=
  (List.range needle.length).all (fun j => hay.getD (i + j) 0 == needle.getD j 0)

/-- Model of the main loop of `qfind` (Range.h).  `i` is the candidate
offset; the loop runs while `i < iEnd` where `iEnd = size - nsize_1`;
a position whose last element mismatches is advanced by one (the inner
`while`), a pedestrian mismatch advances by the skip value.  `fuel`
bounds the iterations; `hay.length + 1` is always enough. -/
def qfindLoop (hay needle : List Nat) : Nat → Nat → Option Nat
  | 0, _ => none
  | fuel + 1, i =>
    if i < hay.length - (needle.length - 1) then
      if hay.getD (i + (needle.length - 1)) 0 == needle.getD (needle.length - 1) 0 then
        if matchesAt hay needle i then some i
        else qfindLoop hay needle fuel (i + skipVal needle)
      else qfindLoop hay needle fuel (i + 1)
    else none

/-- Model of `qfind(haystack, needle)` (Range.h) with the default
element equality.  `none` models `std::string::npos`. -/
def qfind (hay needle : List Nat) : Option Nat :=
  if hay.length < needle.length then none
  else if needle.length = 0 then some 0
  else qfindLoop hay needle (hay.length + 1) 0

/-- Specification predicate: `needle` occurs in `hay` at position `p`.
This is what a naive left-to-right scan checks at each position. -/
def occursAt (hay needle : List Nat) (p : Nat) : Bool :=
  decide (p + needle.length ≤ hay.length) &&
    (List.range needle.length).all (fun j => hay.getD (p + j) 0 == needle.getD j 0)

/-- Naive left-to-right scan starting at position `i`: the first
`p ≥ i` at which `needle` occurs in `hay`. -/
def naiveFindFrom (hay needle : List Nat) (i : Nat) : Option Nat :=
  (List.range' i (hay.length + 1 - i)).find? (occursAt hay needle)

/-- Naive left-to-right scan from the start of `hay`. -/
def naiveFind (hay needle : List Nat) : Option Nat :=
  naiveFindFrom hay needle 0

/-- Model of `Range::find(str, pos)` (Range.h): `npos` when
`pos > size()`, otherwise `qfind` on the subpiece starting at `pos`,
with a found index shifted back by `pos`. -/
def findFrom (hay needle : List Nat) (pos : Nat) : Option Nat :=
  if hay.length < pos then none
  else (qfind (hay.drop pos) needle).map (· + pos)

/-- Naive-scan counterpart of `findFrom`, used by the specification of
`replaceAll`: leftmost occurrence at or after `pos`. -/
def naiveFindFromPos (hay needle : List Nat) (pos : Nat) : Option Nat :=
  if hay.length < pos then none
  else (naiveFind (hay.drop pos) needle).map (· + pos)

/-! ### folly/Range.h : `replaceAll` -/

/-- Model of the loop of `Range::replaceAll` (Range.h): repeatedly
`find(source, pos)`; on a hit, `replaceAt(found, dest)`, advance `pos`
by `source.size()` and count the rewrite.  `fuel` bounds the
iterations; `r.length + 1` is always enough. -/
def replaceAllLoop (source dest : List Nat) : Nat → List Nat → Nat → Nat → List Nat × Nat
  | 0, r, _, cnt => (r, cnt)
  | fuel + 1, r, pos, cnt =>
    match findFrom r source pos with
    | none => (r, cnt)
    | some found =>
        replaceAllLoop source dest fuel (replaceAt r found dest).1
          (pos + source.length) (cnt + 1)

/-- Model of `Range::replaceAll(source, dest)` (Range.h): throws
`std::invalid_argument` when the sizes differ, returns 0 replacements
when `dest` is empty, and otherwise runs the sequential replacement
loop from position 0. -/
def replaceAll (r source dest : List Nat) : Except String (List Nat × Nat) :=
  if source.length ≠ dest.length then
    .error "replacement must have the same size as source"
  else if dest.isEmpty then .ok (r, 0)
  else .ok (replaceAllLoop source dest (r.length + 1) r 0 0)

/-- Specification loop, written from the spec's words: left-to-right
sequential replacement allowing overlap.  Repeatedly locate (by naive
scan) the leftmost occurrence of `source` at or after the current
position, rewrite it in place with `dest`, advance the position by
`source.length`, and count one replacement. -/
def seqReplaceLoop (source dest : List Nat) : Nat → List Nat → Nat → Nat → List Nat × Nat
  | 0, r, _, cnt => (r, cnt)
  | fuel + 1, r, pos, cnt =>
    match naiveFindFromPos r source pos with
    | none => (r, cnt)
    | some found =>
        seqReplaceLoop source dest fuel
          (r.take found ++ dest ++ r.drop (found + dest.length))
          (pos + source.length) (cnt + 1)

/-- Specification of `replaceAll`: sequential left-to-right rewriting
with its rewrite count. -/
def seqReplaceSpec (r source dest : List Nat) : List Nat × Nat :=
  seqReplaceLoop source dest (r.length + 1) r 0 0

/-! ### hphp/runtime/vm/jit/prof-data.cpp : `maybeResetCounters` -/

/-- State of the per-request execution counters of `ProfData`:
the `m_countersReset` flag and the (abstracted) contents of
`m_counters`. -/
structure ProfCounterState where
  countersReset : Bool
  counters : Nat
deriving DecidableEq

/-- Model of `ProfData::maybeResetCounters` (prof-data.cpp),
sequentialized: the double-checked-locking re-read of
`m_countersReset` collapses to a second identical test.  `threshold`
models `Cfg::Jit::ResetProfCountersRequest`, `resetVal` the counter
contents after `resetAllCounters(Cfg::Jit::PGOThreshold)`, and
`requestCount` the current request count.  The second component tells
whether this call performed the reset. -/
def maybeResetCounters (threshold resetVal : Nat) (st : ProfCounterState)
    (requestCount : Nat) : ProfCounterState × Bool :=
  if st.countersReset then (st, false)
  else if requestCount < threshold then (st, false)
  else if st.countersReset then (st, false)
  else ({ countersReset := true, counters := resetVal }, true)

/-- Fold a sequence of `maybeResetCounters` calls (one request count
per call) over a starting state. -/
def runResetCalls (threshold resetVal : Nat) (st : ProfCounterState)
    (reqs : List Nat) : ProfCounterState :=
  reqs.foldl (fun s r => (maybeResetCounters threshold resetVal s r).1) st

/-- State right before the `i`-th call of the sequence. -/
def stateBefore (threshold resetVal : Nat) (st0 : ProfCounterState)
    (reqs : List Nat) (i : Nat) : ProfCounterState :=
  runResetCalls threshold resetVal st0 (reqs.take i)

/-- Whether the `i`-th call of the sequence performed the reset. -/
def callDidReset (threshold resetVal : Nat) (st0 : ProfCounterState)
    (reqs : List Nat) (i : Nat) : Bool :=
  (maybeResetCounters threshold resetVal
    (stateBefore threshold resetVal st0 reqs i) (reqs.getD i 0)).2

/-- Number of calls in the sequence that performed the reset. -/
def resetCount (threshold resetVal : Nat) (st0 : ProfCounterState)
    (reqs : List Nat) : Nat :=
  ((List.range reqs.length).filter
    (callDidReset threshold resetVal st0 reqs)).length

/-! ### hphp/runtime/vm/jit/prof-data.cpp : `proflogueTransId` -/

/-- Invalid translation id, `kInvalidTransID` (= uint32 `-1`). -/
def kInvalidTransID : Nat := 4294967295

/-- Model of `folly::get_default` over the `m_proflogueDB` map, the map
being an association list keyed by `PrologueID` = (function id,
argument count). -/
def getDefaultTransID (db : List ((Nat × Nat) × Nat)) (k : Nat × Nat) : Nat :=
  match db.find? (fun kv => kv.1 == k) with
  | some kv => kv.2
  | none => kInvalidTransID

/-- Model of `ProfData::proflogueTransId(func, nArgs)` (prof-data.cpp):
argument counts above `numNonVariadicParams` are clamped to
`numNonVariadicParams + 1` before the prologue-map lookup. -/
def proflogueTransId (db : List ((Nat × Nat) × Nat))
    (numNonVariadicParams funcId nArgs : Nat) : Nat :=
  let n := if numNonVariadicParams < nArgs then numNonVariadicParams + 1 else nArgs
  getDefaultTransID db (funcId, n)

/-! ### fizz ECH : extension and hello data model

The TLS record codecs, HPKE primitives, handshake transcript and key
scheduler used by `Encryption.cpp` are not part of the excerpt; they
are modelled from the spec below (structural payloads, a
self-delimiting byte encoding, and an AEAD-style seal/open pair). -/

/-- Extension type code of `server_name` (fizz `ExtensionType`). -/
def serverNameType : Nat := 0

/-- Extension type code of `pre_shared_key`. -/
def preSharedKeyType : Nat := 41

/-- Extension type code of `ech_outer_extensions` (0xfd00). -/
def echOuterExtensionsType : Nat := 64768

/-- Extension type code of `encrypted_client_hello` (0xfe0d). -/
def encryptedClientHelloType : Nat := 65037

/-- Modelled from the spec: TLS extension payloads.  The fizz wire
codecs are absent from the excerpt, so payloads are structural: `raw`
is an arbitrary opaque payload, `outerList` a payload that decodes as
an `ech_outer_extensions` reference list, `sniList` a
`server_name_list` of hostnames, and `echData` an
`OuterECHClientHello` payload (cipher suite, config id, enc,
payload). -/
inductive ExtData where
  | raw (bs : List Nat)
  | outerList (types : List Nat)
  | sniList (hosts : List (List Nat))
  | echData (kdfId aeadId configId : Nat) (enc payload : List Nat)
deriving DecidableEq

/-- Model of a TLS `Extension`: its uint16 type code and payload. -/
structure Extension where
  extension_type : Nat
  extension_data : ExtData
deriving DecidableEq

/-- Model of a `ClientHello`, restricted to the fields the ECH module
reads or writes: the legacy session id and the extension list. -/
structure ClientHello where
  legacy_session_id : List Nat
  extensions : List Extension
deriving DecidableEq

/-- Length-prefixed byte-sequence encoding (self-delimiting). -/
def encBytes (bs : List Nat) : List Nat := bs.length :: bs

/-- Length-prefixed encoding of a list of byte sequences. -/
def encBytesList (l : List (List Nat)) : List Nat :=
  l.length :: (l.map encBytes).flatten

/-- Modelled from the spec: byte encoding of an extension payload. -/
def encExtData : ExtData → List Nat
  | .raw bs => 0 :: encBytes bs
  | .outerList ts => 1 :: encBytes ts
  | .sniList hs => 2 :: encBytesList hs
  | .echData k a c e p => 3 :: k :: a :: c :: (encBytes e ++ encBytes p)

/-- Modelled from the spec: byte encoding of an extension. -/
def encExt (e : Extension) : List Nat :=
  e.extension_type :: encExtData e.extension_data

/-- Modelled from the spec: `encode(ClientHello)` — an injective,
self-delimiting byte encoding standing in for the fizz TLS codec. -/
def encodeCH (ch : ClientHello) : List Nat :=
  encBytes ch.legacy_session_id ++
    ch.extensions.length :: (ch.extensions.map encExt).flatten

/-- Decoder for `encBytes`; consumes exactly the encoding, returning
the remaining input. -/
def decBytes : List Nat → Option (List Nat × List Nat)
  | [] => none
  | n :: rest =>
      if n ≤ rest.length then some (rest.take n, rest.drop n) else none

/-- Decoder helper for a counted list of byte sequences. -/
def decBytesListAux : Nat → List Nat → Option (List (List Nat) × List Nat)
  | 0, rest => some ([], rest)
  | k + 1, rest =>
      match decBytes rest with
      | none => none
      | some (b, rest') =>
          match decBytesListAux k rest' with
          | none => none
          | some (bs, rest'') => some (b :: bs, rest'')

/-- Decoder for `encBytesList`. -/
def decBytesList : List Nat → Option (List (List Nat) × List Nat)
  | [] => none
  | n :: rest => decBytesListAux n rest

/-- Decoder for `encExtData`. -/
def decExtData : List Nat → Option (ExtData × List Nat)
  | 0 :: rest => (decBytes rest).map (fun p => (.raw p.1, p.2))
  | 1 :: rest => (decBytes rest).map (fun p => (.outerList p.1, p.2))
  | 2 :: rest => (decBytesList rest).map (fun p => (.sniList p.1, p.2))
  | 3 :: k :: a :: c :: rest =>
      match decBytes rest with
      | none => none
      | some (e, r1) =>
          match decBytes r1 with
          | none => none
          | some (p, r2) => some (.echData k a c e p, r2)
  | _ => none

/-- Decoder for `encExt`. -/
def decExt : List Nat → Option (Extension × List Nat)
  | [] => none
  | t :: rest => (decExtData rest).map (fun p => (⟨t, p.1⟩, p.2))

/-- Decoder helper for a counted extension list. -/
def decExtListAux : Nat → List Nat → Option (List Extension × List Nat)
  | 0, rest => some ([], rest)
  | k + 1, rest =>
      match decExt rest with
      | none => none
      | some (e, rest') =>
          match decExtListAux k rest' with
          | none => none
          | some (es, rest'') => some (e :: es, rest'')

/-- Modelled from the spec: `decode<ClientHello>` — inverse of
`encodeCH`, consuming exactly the encoding. -/
def decodeCH (bs : List Nat) : Option (ClientHello × List Nat) :=
  match decBytes bs with
  | none => none
  | some (sid, r1) =>
      match r1 with
      | [] => none
      | n :: r2 =>
          match decExtListAux n r2 with
          | none => none
          | some (exts, r3) => some (⟨sid, exts⟩, r3)

/-! ### fizz ECH : HPKE context model -/

/-- Modelled from the spec: an HPKE AEAD context.  The HPKE primitives
(KEM, KDF, AEAD) are absent from the excerpt; what the module relies
on is that sealing adds `getCipherOverhead` bytes and that opening
with the same additional authenticated data recovers the plaintext.
`mac` stands for the authentication function of the AEAD. -/
structure HpkeContextModel where
  overhead : Nat
  mac : List Nat → List Nat

/-- Authentication tag of exactly `n` bytes derived from `bs`. -/
def padTag (n : Nat) (bs : List Nat) : List Nat :=
  bs.take n ++ List.replicate (n - bs.length) 0

/-- Modelled from the spec: `HpkeContext::seal(aad, pt)`: the
ciphertext is the plaintext followed by an authentication tag over the
additional authenticated data; its length is `pt.length + overhead`. -/
def hpkeSeal (ctx : HpkeContextModel) (aad pt : List Nat) : List Nat :=
  pt ++ padTag ctx.overhead (ctx.mac aad)

/-- Modelled from the spec: `HpkeContext::open(aad, ct)`: strips the
tag and fails (the C++ call throws) unless it authenticates against
`aad`. -/
def hpkeOpen (ctx : HpkeContextModel) (aad ct : List Nat) :
    Except String (List Nat) :=
  if ct.drop (ct.length - ctx.overhead) = padTag ctx.overhead (ctx.mac aad)
      ∧ ctx.overhead ≤ ct.length then
    .ok (ct.take (ct.length - ctx.overhead))
  else .error "hpke open failed"

/-! ### fizz ECH : config negotiation (Encryption.cpp) -/

/-- Model of an HPKE symmetric cipher suite (kdf id, aead id). -/
structure HpkeCipherSuite where
  kdf_id : Nat
  aead_id : Nat
deriving DecidableEq

/-- Model of `HpkeKeyConfig`, restricted to the fields negotiation
reads. -/
structure HpkeKeyConfig where
  config_id : Nat
  kem_id : Nat
  cipher_suites : List HpkeCipherSuite
deriving DecidableEq

/-- Model of `ParsedECHConfig`: the public name as a byte string, the
key configuration, the maximum name length, and the type codes of the
config's extensions. -/
structure ParsedECHConfig where
  public_name : List Nat
  key_config : HpkeKeyConfig
  maximum_name_length : Nat
  extensions : List Nat
deriving DecidableEq

/-- Model of `echConfigHasMandatoryExtension` (Encryption.cpp): some
extension type code has the high (15th) bit of its uint16 value set. -/
def echConfigHasMandatoryExtension (config : ParsedECHConfig) : Bool :=
  config.extensions.any (fun t => (t % 65536).testBit 15)

/-- ASCII test for `std::isalnum(c) || c == '-'` in the C locale. -/
def isAlnumOrHyphen (c : Nat) : Bool :=
  decide ((48 ≤ c ∧ c ≤ 57) ∨ (65 ≤ c ∧ c ≤ 90) ∨ (97 ≤ c ∧ c ≤ 122) ∨ c = 45)

/-- Model of `folly::split('.', s, parts, false)`: split at every dot,
keeping empty parts. -/
def splitDot : List Nat → List (List Nat)
  | [] => [[]]
  | c :: rest =>
      if c == 46 then [] :: splitDot rest
      else
        match splitDot rest with
        | [] => [[c]]
        | p :: ps => (c :: p) :: ps

/-- Model of `isValidPublicName` (Encryption.cpp): nonempty, no
leading or trailing dot, and every dot-separated part nonempty and
made of LDH characters. -/
def isValidPublicName (publicName : List Nat) : Bool :=
  if publicName.isEmpty then false
  else if publicName.headD 0 == 46 || publicName.getLastD 0 == 46 then false
  else (splitDot publicName).all
    (fun part => !part.isEmpty && part.all isAlnumOrHyphen)

/-- Model of `NegotiatedECHConfig`. -/
structure NegotiatedECHConfig where
  config : ParsedECHConfig
  configId : Nat
  maxLen : Nat
  cipherSuite : HpkeCipherSuite
deriving DecidableEq

/-- Model of the cipher-suite scan of `negotiateECHConfig`
(Encryption.cpp): the first suite whose AEAD the client supports and
whose KDF equals the KDF associated with that AEAD's hash.
`associatedKdf` models the composition
`hpke::getKDFId(getHashFunction(getCipherSuite(aead)))`, whose
definition is outside the excerpt. -/
def selectCipherSuite (supportedAeads : List Nat) (associatedKdf : Nat → Nat)
    (suites : List HpkeCipherSuite) : Option HpkeCipherSuite :=
  suites.find?
    (fun s => supportedAeads.contains s.aead_id && s.kdf_id == associatedKdf s.aead_id)

/-- Model of `negotiateECHConfig` (Encryption.cpp): scan the candidate
configs in order, skipping those with a mandatory extension, an
invalid public name, an unsupported KEM, or no supported cipher
suite. -/
def negotiateECHConfig (configs : List ParsedECHConfig)
    (supportedKEMs supportedAeads : List Nat) (associatedKdf : Nat → Nat) :
    Option NegotiatedECHConfig :=
  match configs with
  | [] => none
  | config :: rest =>
      if echConfigHasMandatoryExtension config then
        negotiateECHConfig rest supportedKEMs supportedAeads associatedKdf
      else if !isValidPublicName config.public_name then
        negotiateECHConfig rest supportedKEMs supportedAeads associatedKdf
      else if !supportedKEMs.contains config.key_config.kem_id then
        negotiateECHConfig rest supportedKEMs supportedAeads associatedKdf
      else
        match selectCipherSuite supportedAeads associatedKdf
            config.key_config.cipher_suites with
        | some suite =>
            some ⟨config, config.key_config.config_id,
              config.maximum_name_length, suite⟩
        | none => negotiateECHConfig rest supportedKEMs supportedAeads associatedKdf

/-- Specification predicate for claim C2: a config is selectable iff
it has no mandatory extension, a valid public name, a supported KEM,
and some cipher suite with a supported AEAD and the matching KDF. -/
def configOK (supportedKEMs supportedAeads : List Nat)
    (associatedKdf : Nat → Nat) (c : ParsedECHConfig) : Prop :=
  echConfigHasMandatoryExtension c = false ∧
  isValidPublicName c.public_name = true ∧
  c.key_config.kem_id ∈ supportedKEMs ∧
  ∃ s ∈ c.key_config.cipher_suites,
    s.aead_id ∈ supportedAeads ∧ s.kdf_id = associatedKdf s.aead_id

/-! ### fizz ECH : padding (Encryption.cpp) -/

/-- Modulus of `size_t` arithmetic (2 ^ 64). -/
def sizeW : Nat := 18446744073709551616

/-- Model of `calculateECHPadding(chlo, encodedSize, maxLen)`
(Encryption.cpp) with `size_t` arithmetic modulo `2 ^ 64` (the
`currentLen - 1` subtraction can wrap).  `sniLen` is the length of the
first SNI hostname of `chlo` when the hello carries an SNI extension,
`none` otherwise. -/
def calculateECHPadding (sniLen : Option Nat) (encodedSize maxLen : Nat) : Nat :=
  let padding : Nat :=
    match sniLen with
    | some l => if l < maxLen then maxLen - l else 0
    | none => (maxLen + 9) % sizeW
  let currentLen := (encodedSize + padding) % sizeW
  (padding + (31 - (currentLen + (sizeW - 1)) % sizeW % 32)) % sizeW

/-- Model of `getExtension<ServerNameList>(chlo.extensions)` followed
by `server_name_list.at(0).hostname->computeChainDataLength()`:
`none` when there is no SNI extension; the errors model the C++
throws (payload parse failure, `.at(0)` on an empty list). -/
def getSniLen (chlo : ClientHello) : Except String (Option Nat) :=
  match chlo.extensions.find? (fun e => e.extension_type == serverNameType) with
  | none => .ok none
  | some e =>
      match e.extension_data with
      | .sniList (h :: _) => .ok (some h.length)
      | .sniList [] => .error "server_name_list.at(0) out of range"
      | _ => .error "server name list parse failure"

/-! ### fizz ECH : outer-extensions rewriting (Encryption.cpp) -/

/-- Replace the first extension whose type is `t` with `repl`;
identity when no extension has that type. -/
def replaceFirstWithType (exts : List Extension) (t : Nat) (repl : Extension) :
    List Extension :=
  match exts with
  | [] => []
  | e :: rest =>
      if e.extension_type == t then repl :: rest
      else e :: replaceFirstWithType rest t repl

/-- Model of `generateAndReplaceOuterExtensions` (Encryption.cpp):
collect the types of the inner extensions listed in
`outerExtensionTypes`; if any, replace the first such extension with
an `ech_outer_extensions` reference list over those types and erase
the remaining ones. -/
def generateAndReplaceOuterExtensions (chloInnerExt : List Extension)
    (outerExtensionTypes : List Nat) : List Extension :=
  let extTypes :=
    (chloInnerExt.filter
      (fun e => outerExtensionTypes.contains e.extension_type)).map
      (·.extension_type)
  match extTypes with
  | [] => chloInnerExt
  | t :: ts =>
      let outerExt : Extension := ⟨echOuterExtensionsType, .outerList extTypes⟩
      ts.foldl (fun acc t' => acc.eraseP (fun e => e.extension_type == t'))
        (replaceFirstWithType chloInnerExt t outerExt)

/-- Model of the `dupeCheck` lambda of `substituteOuterExtensions`
(Encryption.cpp); `seen` is the membership list of the
`unordered_set`. -/
def dupeCheck (seen : List Nat) (t : Nat) : Except String (List Nat) :=
  if seen.contains t then
    .error "inner client hello has duplicate extensions"
  else .ok (t :: seen)

/-- Model of the reference-resolution scan of
`substituteOuterExtensions` (Encryption.cpp): for each referenced
type, duplicate-check it, reject `encrypted_client_hello`, and scan
forward (without rewinding) through the outer extensions for the
referent. -/
def scanRefs : List Nat → List Extension → List Nat →
    Except String (List Extension × List Nat)
  | [], _, seen => .ok ([], seen)
  | t :: ts, outerExts, seen =>
      match dupeCheck seen t with
      | .error msg => .error msg
      | .ok seen' =>
          if t == encryptedClientHelloType then
            .error "ech is not allowed in outer extensions"
          else
            match outerExts.dropWhile (fun e => !(e.extension_type == t)) with
            | [] => .error "ech outer extensions references a missing extension"
            | e :: rest =>
                match scanRefs ts rest seen' with
                | .error msg => .error msg
                | .ok (es, seen'') => .ok (e :: es, seen'')

/-- Model of the main loop of `substituteOuterExtensions`
(Encryption.cpp), threading the duplicate set. -/
def substituteAux : List Extension → List Extension → List Nat →
    Except String (List Extension)
  | [], _, _ => .ok []
  | ext :: rest, chloOuterExt, seen =>
      match dupeCheck seen ext.extension_type with
      | .error msg => .error msg
      | .ok seen' =>
          if ext.extension_type == echOuterExtensionsType then
            match ext.extension_data with
            | .outerList types =>
                match scanRefs types chloOuterExt seen' with
                | .error msg => .error msg
                | .ok (matched, seen'') =>
                    match substituteAux rest chloOuterExt seen'' with
                    | .error msg => .error msg
                    | .ok tail => .ok (matched ++ tail)
            | _ => .error "ech_outer_extensions malformed"
          else
            match substituteAux rest chloOuterExt seen' with
            | .error msg => .error msg
            | .ok tail => .ok (ext :: tail)

/-- Model of `substituteOuterExtensions(chloInnerExt, chloOuterExt)`
(Encryption.cpp). -/
def substituteOuterExtensions (chloInnerExt chloOuterExt : List Extension) :
    Except String (List Extension) :=
  substituteAux chloInnerExt chloOuterExt []

/-! ### fizz ECH : specification predicates for substitution (C4) -/

/-- Payload of an `ech_outer_extensions` extension, when it decodes. -/
def outerRefTypes (e : Extension) : Option (List Nat) :=
  if e.extension_type == echOuterExtensionsType then
    match e.extension_data with
    | .outerList ts => some ts
    | _ => none
  else none

/-- Flattened type sequence of an inner extension list: a plain
extension contributes its type; an `ech_outer_extensions` extension
contributes its own type followed by the referenced types.  This is
the sequence the duplicate check of `substituteOuterExtensions`
inspects. -/
def flattenTypes (exts : List Extension) : List Nat :=
  (exts.map (fun e =>
    match outerRefTypes e with
    | some ts => e.extension_type :: ts
    | none => [e.extension_type])).flatten

/-- Reference lists carried by the `ech_outer_extensions` extensions
of an inner extension list. -/
def refsLists (exts : List Extension) : List (List Nat) :=
  exts.filterMap outerRefTypes

/-- Greedy in-order resolution of a reference list against the outer
extensions: each referenced type is matched to the next outer
extension of that type, scanning forward only.  `none` when some
referent is missing. -/
def greedyMatch : List Nat → List Extension → Option (List Extension)
  | [], _ => some []
  | t :: ts, outerExts =>
      match outerExts.dropWhile (fun e => !(e.extension_type == t)) with
      | [] => none
      | e :: rest => (greedyMatch ts rest).map (e :: ·)

/-- Extension payloads are well formed for substitution: every
`ech_outer_extensions` extension carries a decodable reference
list. -/
def wellFormedRefs (exts : List Extension) : Prop :=
  ∀ e ∈ exts, e.extension_type = echOuterExtensionsType →
    ∃ ts, e.extension_data = .outerList ts

/-- Error condition of claim C4: the expanded inner extension list
would contain a duplicate type, some reference list names
`encrypted_client_hello`, or some referent cannot be found by the
in-order scan. -/
def substituteErrorCond (innerExts outerExts : List Extension) : Prop :=
  ¬ (flattenTypes innerExts).Nodup ∨
  (∃ ts ∈ refsLists innerExts, encryptedClientHelloType ∈ ts) ∨
  (∃ ts ∈ refsLists innerExts, greedyMatch ts outerExts = none)

/-- Specification expansion of claim C4: each `ech_outer_extensions`
reference list is replaced, in order, by the referenced outer
extensions. -/
def specExpansion (innerExts outerExts : List Extension) : List Extension :=
  (innerExts.map (fun e =>
    match outerRefTypes e with
    | some ts => (greedyMatch ts outerExts).getD []
    | none => [e])).flatten

/-! ### fizz ECH : client hello encryption and decryption -/

/-- Model of `OuterECHClientHello` (the `encrypted_client_hello`
extension of draft-15). -/
structure OuterECHClientHello where
  cipher_suite : HpkeCipherSuite
  config_id : Nat
  enc : List Nat
  payload : List Nat
deriving DecidableEq

/-- Encoding of an `OuterECHClientHello` as an extension
(`encodeExtension`). -/
def encodeECHExt (e : OuterECHClientHello) : Extension :=
  ⟨encryptedClientHelloType,
    .echData e.cipher_suite.kdf_id e.cipher_suite.aead_id e.config_id e.enc e.payload⟩

/-- Parsing of an `encrypted_client_hello` extension payload
(`getExtension<OuterECHClientHello>`). -/
def decodeECHExtData : ExtData → Option OuterECHClientHello
  | .echData k a c e p => some ⟨⟨k, a⟩, c, e, p⟩
  | _ => none

/-- Model of a `ClientPresharedKey` (identities with obfuscated ticket
ages, and binders), as used for the grease PSK appended to the AAD. -/
structure ClientPresharedKey where
  identities : List (List Nat × Nat)
  binders : List (List Nat)
deriving DecidableEq

/-- Modelled from the spec: byte encoding of a `ClientPresharedKey`
payload. -/
def encodePskBytes (psk : ClientPresharedKey) : List Nat :=
  psk.identities.length ::
    ((psk.identities.map (fun p => encBytes p.1 ++ [p.2])).flatten ++
      encBytesList psk.binders)

/-- Encoding of a `ClientPresharedKey` as an extension
(`encodeExtension`). -/
def encodePskExtension (psk : ClientPresharedKey) : Extension :=
  ⟨preSharedKeyType, .raw (encodePskBytes psk)⟩

/-- Model of `SetupResult`: the encapsulated key and the HPKE
context. -/
structure SetupResultModel where
  enc : List Nat
  context : HpkeContextModel

/-- Model of `encryptClientHelloImpl` (Encryption.cpp): clear the
inner hello's session id, rewrite the outer-listed extensions into an
`ech_outer_extensions` reference, encode, pad, build the AAD from the
outer hello plus a zero-payload ECH extension (and the grease PSK when
present), and seal. -/
def encryptClientHelloImpl (echExt : OuterECHClientHello)
    (clientHelloInner clientHelloOuter : ClientHello) (ctx : HpkeContextModel)
    (greasePsk : Option ClientPresharedKey) (maxLen : Nat)
    (outerExtensionTypes : List Nat) : Except String OuterECHClientHello :=
  let chloInnerCopy : ClientHello :=
    { legacy_session_id := [],
      extensions :=
        generateAndReplaceOuterExtensions clientHelloInner.extensions
          outerExtensionTypes }
  let encodedClientHelloInner := encodeCH chloInnerCopy
  match getSniLen clientHelloInner with
  | .error msg => .error msg
  | .ok sniLen =>
      let padding :=
        calculateECHPadding sniLen encodedClientHelloInner.length maxLen
      let padded := encodedClientHelloInner ++ List.replicate padding 0
      let dummyPayloadSize := padded.length + ctx.overhead
      let echDummy : OuterECHClientHello :=
        { echExt with payload := List.replicate dummyPayloadSize 0 }
      let chloOuterForAAD : ClientHello :=
        { clientHelloOuter with
          extensions :=
            clientHelloOuter.extensions ++ [encodeECHExt echDummy] ++
              (greasePsk.map encodePskExtension).toList }
      let clientHelloOuterAad := encodeCH chloOuterForAAD
      .ok { echExt with payload := hpkeSeal ctx clientHelloOuterAad padded }

/-- Model of `encryptClientHello` (Encryption.cpp): build the ECH
extension with the negotiated cipher suite, config id and the
encapsulated key, then run the shared implementation. -/
def encryptClientHello (neg : NegotiatedECHConfig)
    (clientHelloInner clientHelloOuter : ClientHello)
    (setupResult : SetupResultModel) (greasePsk : Option ClientPresharedKey)
    (outerExtensionTypes : List Nat) : Except String OuterECHClientHello :=
  encryptClientHelloImpl
    ⟨neg.cipherSuite, neg.configId, setupResult.enc, []⟩
    clientHelloInner clientHelloOuter setupResult.context greasePsk neg.maxLen
    outerExtensionTypes

/-- Model of the payload-zeroing step of `makeClientHelloOuterForAad`
(Encryption.cpp): find the first `encrypted_client_hello` extension,
parse it, and replace its payload with zeroes of the same length. -/
def zeroFirstEchPayload : List Extension → Except String (List Extension)
  | [] => .error "no ech extension in outer client hello"
  | e :: rest =>
      if e.extension_type == encryptedClientHelloType then
        match decodeECHExtData e.extension_data with
        | some ech =>
            .ok (encodeECHExt
              { ech with payload := List.replicate ech.payload.length 0 } :: rest)
        | none => .error "ech extension parse failure"
      else (zeroFirstEchPayload rest).map (e :: ·)

/-- Model of `makeClientHelloOuterForAad` (Encryption.cpp). -/
def makeClientHelloOuterForAad (clientHelloOuter : ClientHello) :
    Except String (List Nat) :=
  match zeroFirstEchPayload clientHelloOuter.extensions with
  | .error msg => .error msg
  | .ok exts => .ok (encodeCH { clientHelloOuter with extensions := exts })

/-- Model of `decryptECHWithContext` (draft-15 path, Encryption.cpp):
reconstruct the AAD, open, decode the inner hello, require the
remaining padding to be all zero, restore the session id from the
outer hello, and expand the outer-extension references. -/
def decryptECHWithContext (clientHelloOuter : ClientHello)
    (encryptedCh : List Nat) (ctx : HpkeContextModel) :
    Except String ClientHello :=
  match makeClientHelloOuterForAad clientHelloOuter with
  | .error msg => .error msg
  | .ok aadCH =>
      match hpkeOpen ctx aadCH encryptedCh with
      | .error msg => .error msg
      | .ok encodedClientHelloInner =>
          match decodeCH encodedClientHelloInner with
          | none => .error "client hello decode failure"
          | some (decodedChlo, rest) =>
              if rest.dropWhile (fun b => b == 0) = [] then
                match substituteOuterExtensions decodedChlo.extensions
                    clientHelloOuter.extensions with
                | .error msg => .error msg
                | .ok expanded =>
                    .ok { decodedChlo with
                      legacy_session_id := clientHelloOuter.legacy_session_id,
                      extensions := expanded }
              else .error "ech padding contains nonzero byte"

/-! ### fizz ECH : acceptance confirmation (Encryption.cpp) -/

/-- Model of a `ServerHello`, with the fields `makeDummyServerHello`
copies. -/
structure ServerHello where
  legacy_version : Nat
  random : List Nat
  legacy_session_id_echo : List Nat
  cipher_suite : Nat
  legacy_compression_method : Nat
  extensions : List Extension
deriving DecidableEq

/-- Size of the ECH acceptance confirmation
(`kEchAcceptConfirmationSize`). -/
def kEchAcceptConfirmationSize : Nat := 8

/-- Model of `makeDummyServerHello` (Encryption.cpp): a copy whose
last 8 random bytes are zeroed. -/
def makeDummyServerHello (shlo : ServerHello) : ServerHello :=
  { shlo with
    random :=
      shlo.random.take (shlo.random.length - kEchAcceptConfirmationSize) ++
        List.replicate kEchAcceptConfirmationSize 0 }

/-- Modelled from the spec: `encodeHandshake(ServerHello)` as a
self-delimiting structural byte encoding. -/
def encodeHandshakeSH (s : ServerHello) : List Nat :=
  s.legacy_version ::
    (encBytes s.random ++ encBytes s.legacy_session_id_echo ++
      s.cipher_suite :: s.legacy_compression_method ::
        s.extensions.length :: (s.extensions.map encExt).flatten)

/-- Label of `EarlySecrets::ECHAcceptConfirmation`. -/
def echAcceptConfirmationLabel : Nat := 0

/-- Model of `calculateAcceptConfirmation` for a `ServerHello`
(Encryption.cpp).  The handshake context is the accumulated transcript
bytes; `getSecret` models the key scheduler's secret derivation
composed with the transcript hash, both outside the excerpt (modelled
from the spec), and is universally quantified in the theorems. -/
def calculateAcceptConfirmation (getSecret : Nat → List Nat → List Nat)
    (transcript : List Nat) (shlo : ServerHello) : List Nat :=
  getSecret echAcceptConfirmationLabel
    (transcript ++ encodeHandshakeSH (makeDummyServerHello shlo))

/-- Model of `checkECHAccepted` for a `ServerHello` (Encryption.cpp):
compare the last 8 random bytes against the first 8 secret bytes. -/
def checkECHAccepted (getSecret : Nat → List Nat → List Nat)
    (transcript : List Nat) (shlo : ServerHello) : Bool :=
  let acceptConfirmation := calculateAcceptConfirmation getSecret transcript shlo
  shlo.random.drop (shlo.random.length - kEchAcceptConfirmationSize) ==
    acceptConfirmation.take kEchAcceptConfirmationSize

/-- Model of `setAcceptConfirmation` for a `ServerHello`
(Encryption.cpp): write the first 8 secret bytes over the last 8
random bytes. -/
def setAcceptConfirmation (getSecret : Nat → List Nat → List Nat)
    (transcript : List Nat) (shlo : ServerHello) : ServerHello :=
  let acceptConfirmation := calculateAcceptConfirmation getSecret transcript shlo
  { shlo with
    random :=
      shlo.random.take (shlo.random.length - kEchAcceptConfirmationSize) ++
        acceptConfirmation.take kEchAcceptConfirmationSize }

/-- Specification of a successful negotiation for claim C2: the
chosen config is the first selectable one, and the result carries its
config id, maximum name length, and the suite found by the
cipher-suite scan. -/
def negotiatedOK (supportedKEMs supportedAeads : List Nat)
    (associatedKdf : Nat → Nat) (configs : List ParsedECHConfig)
    (r : NegotiatedECHConfig) : Prop :=
  ∃ pre post, configs = pre ++ r.config :: post ∧
    (∀ c ∈ pre, ¬ configOK supportedKEMs supportedAeads associatedKdf c) ∧
    configOK supportedKEMs supportedAeads associatedKdf r.config ∧
    r.configId = r.config.key_config.config_id ∧
    r.maxLen = r.config.maximum_name_length ∧
    selectCipherSuite supportedAeads associatedKdf
      r.config.key_config.cipher_suites = some r.cipherSuite

/-! ### Concrete ECH round-trip instances (C1) -/

/-- Concrete HPKE context for the C1 instances: overhead one byte, the
tag a digest of the AAD length. -/
def c1Ctx : HpkeContextModel := ⟨1, fun aad => [aad.length]⟩

/-- Concrete negotiated config for the C1 instances. -/
def c1Neg : NegotiatedECHConfig := ⟨⟨[], ⟨0, 0, []⟩, 0, []⟩, 7, 0, ⟨1, 1⟩⟩

/-- Concrete HPKE setup result for the C1 instances. -/
def c1Setup : SetupResultModel := ⟨[9], c1Ctx⟩

/-- Inner hello whose outer-listed extensions (types 10 and 30) are
not contiguous: type 20 sits between them. -/
def c1Inner : ClientHello :=
  ⟨[5, 5], [⟨10, .raw [1]⟩, ⟨20, .raw [2]⟩, ⟨30, .raw [3]⟩]⟩

/-- Outer hello carrying the two outer-listed extensions. -/
def c1Outer : ClientHello := ⟨[5, 5], [⟨10, .raw [1]⟩, ⟨30, .raw [3]⟩]⟩

/-- Outer-extension types for the C1 instances. -/
def c1OuterTypes : List Nat := [10, 30]

/-- ECH extension produced by encrypting `c1Inner`. -/
def c1Ech : OuterECHClientHello :=
  (encryptClientHello c1Neg c1Inner c1Outer c1Setup none
    c1OuterTypes).toOption.getD ⟨⟨0, 0⟩, 0, [], []⟩

/-- Inner hello whose outer-listed extensions form one contiguous
block (types 10 and 30 adjacent, type 20 after). -/
def w1Inner : ClientHello :=
  ⟨[5, 5], [⟨10, .raw [1]⟩, ⟨30, .raw [3]⟩, ⟨20, .raw [2]⟩]⟩

/-- ECH extension produced by encrypting `w1Inner`. -/
def w1Ech : OuterECHClientHello :=
  (encryptClientHello c1Neg w1Inner c1Outer c1Setup none
    c1OuterTypes).toOption.getD ⟨⟨0, 0⟩, 0, [], []⟩

/-! ## Theorems -/

/-! ### C8 : `replaceAt` -/

/-- Claim C8: for every writable range `r`, position `pos`, and
replacement `x`, `replaceAt` returns false and leaves the contents of
`r` unchanged if and only if `pos + |x| > |r|`; when
`pos + |x| ≤ |r|` it overwrites exactly the `|x|` elements starting at
`pos` with the elements of `x` and returns true, leaving all other
elements unchanged. -/
theorem replaceAt_spec (r : List Nat) (pos : Nat) (x : List Nat) :
    (((replaceAt r pos x).2 = false ∧ (replaceAt r pos x).1 = r) ↔
      r.length < pos + x.length) ∧
    (pos + x.length ≤ r.length →
      (replaceAt r pos x).2 = true ∧
      (replaceAt r pos x).1.length = r.length ∧
      (replaceAt r pos x).1.take pos = r.take pos ∧
      ((replaceAt r pos x).1.drop pos).take x.length = x ∧
      (replaceAt r pos x).1.drop (pos + x.length) = r.drop (pos + x.length)) := by
  by_cases h : r.length < pos + x.length
  · refine ⟨⟨fun _ => h, fun _ => ?_⟩, fun hle => absurd hle (by omega)⟩
    simp [replaceAt, if_pos h]
  · have hle : pos + x.length ≤ r.length := le_of_not_lt h
    have hpos : pos ≤ r.length := by omega
    have hA : (r.take pos).length = pos := by
      simp [List.length_take, Nat.min_eq_left hpos]
    simp only [replaceAt, if_neg h]
    constructor
    · constructor
      · rintro ⟨hfalse, -⟩
        exact absurd hfalse (by simp)
      · intro hlt
        exact absurd hlt h
    · intro _
      refine ⟨by trivial, ?_, ?_, ?_, ?_⟩
      · simp [List.length_take, List.length_drop]
        omega
      · rw [show r.take pos ++ x ++ r.drop (pos + x.length) =
            r.take pos ++ (x ++ r.drop (pos + x.length)) by simp]
        exact List.take_left' hA
      · rw [show r.take pos ++ x ++ r.drop (pos + x.length) =
            r.take pos ++ (x ++ r.drop (pos + x.length)) by simp,
          List.drop_left' hA, List.take_left' rfl]
      · have hAx : (r.take pos ++ x).length = pos + x.length := by
          simp [hA]
        rw [show r.take pos ++ x ++ r.drop (pos + x.length) =
            (r.take pos ++ x) ++ r.drop (pos + x.length) by simp,
          List.drop_left' hAx]

/-- Witness for C8 at a concrete input. -/
theorem replaceAt_spec_witness :
    (replaceAt [1, 2, 3, 4, 5, 6] 2 [9, 9]).2 = true :=
  ((replaceAt_spec [1, 2, 3, 4, 5, 6] 2 [9, 9]).2 (by decide)).1

/-! ### C7 : `qfind` vs naive scan -/

/-- Pointwise reading of `occursAt`. -/
theorem occursAt_iff (hay needle : List Nat) (p : Nat) :
    occursAt hay needle p = true ↔
      p + needle.length ≤ hay.length ∧
        ∀ j < needle.length, hay.getD (p + j) 0 = needle.getD j 0 := by
  simp [occursAt, List.all_eq_true, List.mem_range]

/-- No occurrence where the needle would overrun the haystack. -/
theorem occursAt_false_of_overrun (hay needle : List Nat) (p : Nat)
    (h : hay.length < p + needle.length) : occursAt hay needle p = false := by
  apply Bool.eq_false_iff.mpr
  intro ho
  exact absurd ((occursAt_iff hay needle p).1 ho).1 (by omega)

/-- An occurrence forces the last needle element to match. -/
theorem occursAt_last (hay needle : List Nat) (p : Nat)
    (hn : 1 ≤ needle.length) (h : occursAt hay needle p = true) :
    hay.getD (p + (needle.length - 1)) 0 = needle.getD (needle.length - 1) 0 :=
  ((occursAt_iff hay needle p).1 h).2 (needle.length - 1) (by omega)

/-- Reading `occursAt` through the implementation's pedestrian loop. -/
theorem occursAt_eq_bound_and_matches (hay needle : List Nat) (p : Nat) :
    occursAt hay needle p =
      (decide (p + needle.length ≤ hay.length) && matchesAt hay needle p) := rfl

/-- Beyond the end of the haystack the naive scan gives nothing. -/
theorem naiveFindFrom_stop (hay needle : List Nat) (i : Nat)
    (h : hay.length < i) : naiveFindFrom hay needle i = none := by
  unfold naiveFindFrom
  rw [show hay.length + 1 - i = 0 by omega]
  simp

/-- Naive-scan step when position `i` is an occurrence. -/
theorem naiveFindFrom_step_pos (hay needle : List Nat) (i : Nat)
    (h : i ≤ hay.length) (ho : occursAt hay needle i = true) :
    naiveFindFrom hay needle i = some i := by
  unfold naiveFindFrom
  rw [show hay.length + 1 - i = (hay.length - i) + 1 by omega, List.range'_succ]
  exact List.find?_cons_of_pos _ ho

/-- Naive-scan step when position `i` is not an occurrence. -/
theorem naiveFindFrom_step_neg (hay needle : List Nat) (i : Nat)
    (h : i ≤ hay.length) (ho : occursAt hay needle i = false) :
    naiveFindFrom hay needle i = naiveFindFrom hay needle (i + 1) := by
  unfold naiveFindFrom
  rw [show hay.length + 1 - i = (hay.length - i) + 1 by omega, List.range'_succ,
    show hay.length + 1 - (i + 1) = hay.length - i by omega]
  exact List.find?_cons_of_neg _ (by simp [ho])

/-- The naive scan may skip over a block of non-occurrences. -/
theorem naiveFindFrom_congr_skip (hay needle : List Nat) (i m : Nat)
    (h : ∀ d < m, occursAt hay needle (i + d) = false) :
    naiveFindFrom hay needle i = naiveFindFrom hay needle (i + m) := by
  induction m generalizing i with
  | zero => simp
  | succ m ih =>
      by_cases hi : i ≤ hay.length
      · have h0 : occursAt hay needle i = false := by
          have := h 0 (by omega)
          simpa using this
        rw [naiveFindFrom_step_neg hay needle i hi h0]
        rw [ih (i + 1) (fun d hd => by
          have := h (d + 1) (by omega)
          rwa [show i + (d + 1) = i + 1 + d by omega] at this)]
        rw [show i + 1 + m = i + (m + 1) by omega]
      · rw [naiveFindFrom_stop hay needle i (by omega),
          naiveFindFrom_stop hay needle (i + (m + 1)) (by omega)]

/-- The naive scan gives nothing when no position at or after `i` is
an occurrence. -/
theorem naiveFindFrom_none_of_no_occurrence (hay needle : List Nat) (i : Nat)
    (h : ∀ p, i ≤ p → occursAt hay needle p = false) :
    naiveFindFrom hay needle i = none := by
  unfold naiveFindFrom
  apply List.find?_eq_none.mpr
  intro p hp
  have hip : i ≤ p := (List.mem_range'_1.1 hp).1
  simp [h p hip]

/-- Lower bound on the skip loop's result. -/
theorem skipLoop_le_start (needle : List Nat) (last n1 : Nat) :
    ∀ fuel s, s ≤ skipLoop needle last n1 fuel s := by
  intro fuel
  induction fuel with
  | zero => intro s; simp [skipLoop]
  | succ fuel ih =>
      intro s
      unfold skipLoop
      by_cases hc : s ≤ n1 ∧ needle.getD (n1 - s) 0 ≠ last
      · rw [if_pos hc]
        exact le_trans (Nat.le_succ s) (ih (s + 1))
      · rw [if_neg hc]

/-- Every position passed over by the skip loop failed its stopping
test. -/
theorem skipLoop_mem (needle : List Nat) (last n1 : Nat) :
    ∀ fuel s t, s ≤ t → t < skipLoop needle last n1 fuel s →
      t ≤ n1 ∧ needle.getD (n1 - t) 0 ≠ last := by
  intro fuel
  induction fuel with
  | zero =>
      intro s t hst ht
      simp [skipLoop] at ht
      omega
  | succ fuel ih =>
      intro s t hst ht
      unfold skipLoop at ht
      by_cases hc : s ≤ n1 ∧ needle.getD (n1 - s) 0 ≠ last
      · rw [if_pos hc] at ht
        rcases Nat.eq_or_lt_of_le hst with heq | hlt
        · exact heq ▸ hc
        · exact ih (s + 1) t hlt ht
      · rw [if_neg hc] at ht
        omega

/-- The skip value is at least one. -/
theorem skipVal_pos (needle : List Nat) : 1 ≤ skipVal needle :=
  skipLoop_le_start needle _ _ _ 1

/-- Minimality of the skip value: smaller shifts cannot realign the
last needle element. -/
theorem skipVal_sound (needle : List Nat) (d : Nat) (hd1 : 1 ≤ d)
    (hd2 : d < skipVal needle) :
    d ≤ needle.length - 1 ∧
      needle.getD (needle.length - 1 - d) 0 ≠
        needle.getD (needle.length - 1) 0 :=
  skipLoop_mem needle _ _ _ 1 d hd1 hd2

/-- Soundness of the Boyer-Moore skip: when the last element matched
at `i`, no occurrence starts strictly inside the skipped block. -/
theorem occursAt_false_in_skip (hay needle : List Nat) (i d : Nat)
    (hn : 1 ≤ needle.length)
    (hlast : hay.getD (i + (needle.length - 1)) 0 =
      needle.getD (needle.length - 1) 0)
    (hd1 : 1 ≤ d) (hd2 : d < skipVal needle) :
    occursAt hay needle (i + d) = false := by
  apply Bool.eq_false_iff.mpr
  intro ho
  obtain ⟨hdle, hne⟩ := skipVal_sound needle d hd1 hd2
  have hpt := ((occursAt_iff hay needle (i + d)).1 ho).2
    (needle.length - 1 - d) (by omega)
  rw [show i + d + (needle.length - 1 - d) = i + (needle.length - 1) by omega]
    at hpt
  exact hne (hpt.symm.trans hlast)

/-- Main loop refinement: given enough fuel, `qfindLoop` computes the
naive scan from `i`. -/
theorem qfindLoop_eq_naiveFindFrom (hay needle : List Nat)
    (hn : 1 ≤ needle.length) (hlen : needle.length ≤ hay.length) :
    ∀ fuel i, hay.length + 1 ≤ fuel + i →
      qfindLoop hay needle fuel i = naiveFindFrom hay needle i := by
  intro fuel
  induction fuel with
  | zero =>
      intro i hfi
      rw [naiveFindFrom_stop hay needle i (by omega)]
      simp [qfindLoop]
  | succ fuel ih =>
      intro i hfi
      unfold qfindLoop
      by_cases hi : i < hay.length - (needle.length - 1)
      · rw [if_pos hi]
        have hbound : i + needle.length ≤ hay.length := by omega
        by_cases hlast : hay.getD (i + (needle.length - 1)) 0 =
            needle.getD (needle.length - 1) 0
        · rw [if_pos (by simpa using hlast)]
          by_cases hm : matchesAt hay needle i = true
          · rw [if_pos hm]
            have ho : occursAt hay needle i = true := by
              rw [occursAt_eq_bound_and_matches]
              simp [hm, hbound]
            rw [naiveFindFrom_step_pos hay needle i (by omega) ho]
          · rw [if_neg hm]
            have hmf : matchesAt hay needle i = false :=
              Bool.eq_false_iff.mpr hm
            have hnone : ∀ d < skipVal needle,
                occursAt hay needle (i + d) = false := by
              intro d hd
              rcases Nat.eq_zero_or_pos d with h0 | hpos
              · subst h0
                rw [Nat.add_zero, occursAt_eq_bound_and_matches, hmf]
                simp
              · exact occursAt_false_in_skip hay needle i d hn hlast hpos hd
            have harith : hay.length + 1 ≤ fuel + (i + skipVal needle) := by
              have := skipVal_pos needle
              omega
            exact (ih (i + skipVal needle) harith).trans
              (naiveFindFrom_congr_skip hay needle i (skipVal needle) hnone).symm
        · rw [if_neg (by simpa using hlast)]
          have h0 : occursAt hay needle i = false := by
            apply Bool.eq_false_iff.mpr
            intro ho
            exact hlast (occursAt_last hay needle i hn ho)
          have hstep : naiveFindFrom hay needle i = naiveFindFrom hay needle (i + 1) :=
            naiveFindFrom_congr_skip hay needle i 1
              (by intro d hd
                  have : d = 0 := by omega
                  subst this
                  simpa using h0)
          exact (ih (i + 1) (by omega)).trans hstep.symm
      · rw [if_neg hi]
        symm
        apply naiveFindFrom_none_of_no_occurrence
        intro p hp
        apply occursAt_false_of_overrun
        omega

/-- Equivalence of `qfind` with the naive scan (shared helper). -/
theorem qfind_eq_naive_aux (hay needle : List Nat) :
    qfind hay needle = naiveFind hay needle := by
  unfold qfind naiveFind
  by_cases h1 : hay.length < needle.length
  · rw [if_pos h1]
    symm
    apply naiveFindFrom_none_of_no_occurrence
    intro p hp
    apply occursAt_false_of_overrun
    omega
  · rw [if_neg h1]
    by_cases h2 : needle.length = 0
    · rw [if_pos h2]
      symm
      apply naiveFindFrom_step_pos hay needle 0 (by omega)
      apply (occursAt_iff hay needle 0).2
      exact ⟨by omega, by intro j hj; omega⟩
    · rw [if_neg h2]
      exact qfindLoop_eq_naiveFindFrom hay needle (by omega) (by omega)
        (hay.length + 1) 0 (by omega)

/-- Claim C7: `find(sub)` as implemented by the Boyer-Moore-flavored
`qfind` returns the same index as a naive left-to-right scan for every
haystack and needle, including the empty needle (index 0) and needles
longer than the haystack (npos, modelled `none`). -/
theorem qfind_eq_naiveFind (hay needle : List Nat) :
    qfind hay needle = naiveFind hay needle ∧
    (needle.length = 0 → qfind hay needle = some 0) ∧
    (hay.length < needle.length → qfind hay needle = none) := by
  refine ⟨qfind_eq_naive_aux hay needle, ?_, ?_⟩
  · intro h2
    unfold qfind
    rw [if_neg (by omega), if_pos h2]
  · intro h1
    unfold qfind
    rw [if_pos h1]

/-- Witness for C7 at concrete inputs. -/
theorem qfind_eq_naiveFind_witness :
    qfind [5, 6, 7] [6, 7] = naiveFind [5, 6, 7] [6, 7] ∧
    qfind [5] [] = some 0 ∧ qfind [5] [6, 7] = none :=
  ⟨(qfind_eq_naiveFind [5, 6, 7] [6, 7]).1,
    (qfind_eq_naiveFind [5] []).2.1 (by decide),
    (qfind_eq_naiveFind [5] [6, 7]).2.2 (by decide)⟩

/-! ### C6 : `replaceAll` -/

/-- A found naive occurrence is a true occurrence. -/
theorem naiveFind_some_occurs (hay needle : List Nat) (f : Nat)
    (h : naiveFind hay needle = some f) : occursAt hay needle f = true := by
  unfold naiveFind naiveFindFrom at h
  exact List.find?_some h

/-- The implementation's `find(str, pos)` agrees with the naive
at-or-after-`pos` scan. -/
theorem findFrom_eq_naiveFindFromPos (hay needle : List Nat) (pos : Nat) :
    findFrom hay needle pos = naiveFindFromPos hay needle pos := by
  unfold findFrom naiveFindFromPos
  rw [qfind_eq_naive_aux]

/-- Bounds carried by a successful positioned naive find. -/
theorem naiveFindFromPos_bound (hay needle : List Nat) (pos found : Nat)
    (h : naiveFindFromPos hay needle pos = some found) :
    pos ≤ found ∧ found + needle.length ≤ hay.length := by
  unfold naiveFindFromPos at h
  by_cases hp : hay.length < pos
  · rw [if_pos hp] at h
    simp at h
  · rw [if_neg hp] at h
    cases hq : naiveFind (hay.drop pos) needle with
    | none => rw [hq] at h; simp at h
    | some f =>
        rw [hq] at h
        have hocc := naiveFind_some_occurs (hay.drop pos) needle f hq
        have hb := ((occursAt_iff (hay.drop pos) needle f).1 hocc).1
        simp at h
        rw [List.length_drop] at hb
        omega

/-- Lockstep equality of the implementation loop and the
specification loop. -/
theorem replaceAllLoop_eq_seqReplaceLoop (source dest : List Nat)
    (hsd : source.length = dest.length) :
    ∀ fuel r pos cnt,
      replaceAllLoop source dest fuel r pos cnt =
        seqReplaceLoop source dest fuel r pos cnt := by
  intro fuel
  induction fuel with
  | zero => intro r pos cnt; rfl
  | succ fuel ih =>
      intro r pos cnt
      unfold replaceAllLoop seqReplaceLoop
      rw [findFrom_eq_naiveFindFromPos]
      cases h : naiveFindFromPos r source pos with
      | none => rfl
      | some found =>
          dsimp only
          have hb := naiveFindFromPos_bound r source pos found h
          have hfit : ¬ r.length < found + dest.length := by omega
          rw [show (replaceAt r found dest).1 =
              r.take found ++ dest ++ r.drop (found + dest.length) by
            simp [replaceAt, if_neg hfit]]
          exact ih _ _ _

/-- Claim C6: for every writable range `r` and every `source`, `dest`
with `|source| = |dest| > 0`, `replaceAll` performs left-to-right
sequential replacement allowing overlap and returns the number of
occurrences rewritten sequentially (the specification loop
`seqReplaceSpec`). -/
theorem replaceAll_sequential (r source dest : List Nat)
    (h1 : source.length = dest.length) (h2 : 0 < dest.length) :
    replaceAll r source dest = .ok (seqReplaceSpec r source dest) := by
  unfold replaceAll seqReplaceSpec
  rw [if_neg (by omega)]
  have hne : dest.isEmpty = false := by
    cases dest with
    | nil => simp at h2
    | cons a l => rfl
  rw [hne]
  simp only [Bool.false_eq_true, if_false]
  rw [replaceAllLoop_eq_seqReplaceLoop source dest h1]

/-- Witness for C6 at the spec's example: "aaaaaaa" replace "aa" with
"ba" gives "bababaa" and 3 replacements. -/
theorem replaceAll_sequential_witness :
    replaceAll [97, 97, 97, 97, 97, 97, 97] [97, 97] [98, 97] =
      .ok (seqReplaceSpec [97, 97, 97, 97, 97, 97, 97] [97, 97] [98, 97]) ∧
    seqReplaceSpec [97, 97, 97, 97, 97, 97, 97] [97, 97] [98, 97] =
      ([98, 97, 98, 97, 98, 97, 97], 3) :=
  ⟨replaceAll_sequential [97, 97, 97, 97, 97, 97, 97] [97, 97] [98, 97]
      (by decide) (by decide),
    by decide⟩

/-! ### C9 : `maybeResetCounters` -/

/-- A call on an already-reset state does nothing. -/
theorem maybeResetCounters_of_reset (thr rv : Nat) (st : ProfCounterState)
    (req : Nat) (h : st.countersReset = true) :
    maybeResetCounters thr rv st req = (st, false) := by
  simp [maybeResetCounters, h]

/-- Characterization of a call that performs the reset. -/
theorem maybeResetCounters_true_iff (thr rv : Nat) (st : ProfCounterState)
    (req : Nat) :
    (maybeResetCounters thr rv st req).2 = true ↔
      st.countersReset = false ∧ thr ≤ req := by
  unfold maybeResetCounters
  by_cases h1 : st.countersReset
  · simp [h1]
  · by_cases h2 : req < thr
    · simp [h1, h2]
    · simp [h1, h2]
      omega

/-- A call that does not reset leaves the state unchanged. -/
theorem maybeResetCounters_false (thr rv : Nat) (st : ProfCounterState)
    (req : Nat) (h : (maybeResetCounters thr rv st req).2 = false) :
    (maybeResetCounters thr rv st req).1 = st := by
  unfold maybeResetCounters at h ⊢
  by_cases h1 : st.countersReset
  · simp [h1]
  · by_cases h2 : req < thr
    · simp [h1, h2]
    · simp [h1, h2] at h

/-- A call that resets leaves the flag set. -/
theorem maybeResetCounters_result_flag (thr rv : Nat) (st : ProfCounterState)
    (req : Nat) (h : (maybeResetCounters thr rv st req).2 = true) :
    (maybeResetCounters thr rv st req).1.countersReset = true := by
  unfold maybeResetCounters at h ⊢
  by_cases h1 : st.countersReset
  · simp [h1] at h
  · by_cases h2 : req < thr
    · simp [h1, h2] at h
    · simp [h1, h2]

/-- Unfolding of `stateBefore` one call at a time. -/
theorem stateBefore_succ (thr rv : Nat) (st0 : ProfCounterState)
    (reqs : List Nat) (i : Nat) (h : i < reqs.length) :
    stateBefore thr rv st0 reqs (i + 1) =
      (maybeResetCounters thr rv (stateBefore thr rv st0 reqs i)
        (reqs.getD i 0)).1 := by
  unfold stateBefore runResetCalls
  rw [List.take_succ, List.getElem?_eq_getElem h]
  rw [List.foldl_append]
  simp [List.getD_eq_getElem?_getD, List.getElem?_eq_getElem h]

/-- Past the end of the sequence the state is unchanged. -/
theorem stateBefore_succ_of_ge (thr rv : Nat) (st0 : ProfCounterState)
    (reqs : List Nat) (i : Nat) (h : reqs.length ≤ i) :
    stateBefore thr rv st0 reqs (i + 1) = stateBefore thr rv st0 reqs i := by
  unfold stateBefore
  rw [List.take_of_length_le h, List.take_of_length_le (by omega)]

/-- Once the reset flag is set before call `i`, it stays set. -/
theorem stateBefore_reset_persists (thr rv : Nat) (st0 : ProfCounterState)
    (reqs : List Nat) (i : Nat)
    (h : (stateBefore thr rv st0 reqs i).countersReset = true) :
    ∀ k, (stateBefore thr rv st0 reqs (i + k)).countersReset = true := by
  intro k
  induction k with
  | zero => exact h
  | succ k ih =>
      by_cases hik : i + k < reqs.length
      · rw [show i + (k + 1) = (i + k) + 1 by omega,
          stateBefore_succ thr rv st0 reqs (i + k) hik,
          maybeResetCounters_of_reset thr rv _ _ ih]
        exact ih
      · rw [show i + (k + 1) = (i + k) + 1 by omega,
          stateBefore_succ_of_ge thr rv st0 reqs (i + k) (by omega)]
        exact ih

/-- At most one true index in a strictly increasing list when an
earlier true forces all later ones false. -/
theorem filter_length_le_one_of_exclusive (p : Nat → Bool) :
    ∀ l : List Nat, l.Pairwise (· < ·) →
      (∀ i j, i ∈ l → j ∈ l → i < j → p i = true → p j = false) →
      (l.filter p).length ≤ 1 := by
  intro l
  induction l with
  | nil => intro _ _; simp
  | cons a l ih =>
      intro hpw hexcl
      rw [List.filter_cons]
      by_cases hpa : p a = true
      · rw [if_pos hpa]
        have hnil : l.filter p = [] := by
          apply List.filter_eq_nil_iff.mpr
          intro b hb
          have hab : a < b := (List.pairwise_cons.1 hpw).1 b hb
          simp [hexcl a b (List.mem_cons_self a l) (List.mem_cons_of_mem a hb)
            hab hpa]
        simp [hnil]
      · rw [if_neg hpa]
        exact ih (List.pairwise_cons.1 hpw).2
          (fun i j hmi hmj => hexcl i j (List.mem_cons_of_mem a hmi)
            (List.mem_cons_of_mem a hmj))

/-- Claim C9: across any sequence of `maybeResetCounters` calls, the
counters are reset at most once; a reset happens only when the request
count has reached the threshold; calls made before the threshold is
reached, or on an already-reset state, perform no reset; and every
non-resetting call leaves the counters unchanged. -/
theorem maybeResetCounters_once (thr rv : Nat) (st0 : ProfCounterState)
    (reqs : List Nat) :
    resetCount thr rv st0 reqs ≤ 1 ∧
    (∀ i, callDidReset thr rv st0 reqs i = true → thr ≤ reqs.getD i 0) ∧
    (∀ i, reqs.getD i 0 < thr → callDidReset thr rv st0 reqs i = false) ∧
    (∀ i, (stateBefore thr rv st0 reqs i).countersReset = true →
      callDidReset thr rv st0 reqs i = false) ∧
    (∀ i, callDidReset thr rv st0 reqs i = false →
      (stateBefore thr rv st0 reqs (i + 1)).counters =
        (stateBefore thr rv st0 reqs i).counters) := by
  have hexcl : ∀ i j, i ∈ List.range reqs.length → j ∈ List.range reqs.length →
      i < j → callDidReset thr rv st0 reqs i = true →
      callDidReset thr rv st0 reqs j = false := by
    intro i j hmi hmj hij hi
    have hilen : i < reqs.length := List.mem_range.1 hmi
    have hafter : (stateBefore thr rv st0 reqs (i + 1)).countersReset = true := by
      rw [stateBefore_succ thr rv st0 reqs i hilen]
      exact maybeResetCounters_result_flag thr rv _ _ hi
    have hj : (stateBefore thr rv st0 reqs j).countersReset = true := by
      have := stateBefore_reset_persists thr rv st0 reqs (i + 1) hafter (j - (i + 1))
      rwa [show i + 1 + (j - (i + 1)) = j by omega] at this
    apply Bool.eq_false_iff.mpr
    intro hc
    have := ((maybeResetCounters_true_iff thr rv _ _).1 hc).1
    rw [hj] at this
    exact absurd this (by simp)
  refine ⟨?_, ?_, ?_, ?_, ?_⟩
  · exact filter_length_le_one_of_exclusive _ (List.range reqs.length)
      (List.pairwise_lt_range reqs.length) hexcl
  · intro i hi
    exact ((maybeResetCounters_true_iff thr rv _ _).1 hi).2
  · intro i hlt
    apply Bool.eq_false_iff.mpr
    intro hc
    have := ((maybeResetCounters_true_iff thr rv _ _).1 hc).2
    omega
  · intro i hrst
    apply Bool.eq_false_iff.mpr
    intro hc
    have := ((maybeResetCounters_true_iff thr rv _ _).1 hc).1
    rw [hrst] at this
    exact absurd this (by simp)
  · intro i hfalse
    by_cases hilen : i < reqs.length
    · rw [stateBefore_succ thr rv st0 reqs i hilen,
        maybeResetCounters_false thr rv _ _ hfalse]
    · rw [stateBefore_succ_of_ge thr rv st0 reqs i (by omega)]

/-- Witness for C9 at a concrete trace. -/
theorem maybeResetCounters_once_witness :
    resetCount 2 5 ⟨false, 9⟩ [0, 3, 4] ≤ 1 ∧ 2 ≤ [0, 3, 4].getD 1 0 :=
  ⟨(maybeResetCounters_once 2 5 ⟨false, 9⟩ [0, 3, 4]).1,
    (maybeResetCounters_once 2 5 ⟨false, 9⟩ [0, 3, 4]).2.1 1 (by decide)⟩

/-! ### C10 : `proflogueTransId` -/

/-- Claim C10: for every argument count above the function's number of
non-variadic parameters, `proflogueTransId` looks up the same prologue
key as `numNonVariadicParams + 1`: all over-saturated counts share one
prologue record. -/
theorem proflogueTransId_clamp (db : List ((Nat × Nat) × Nat))
    (numParams funcId nArgs : Nat) (h : numParams < nArgs) :
    proflogueTransId db numParams funcId nArgs =
      proflogueTransId db numParams funcId (numParams + 1) := by
  unfold proflogueTransId
  simp only [if_pos h, if_pos (Nat.lt_succ_self numParams)]

/-- Witness for C10 at a concrete map. -/
theorem proflogueTransId_clamp_witness :
    proflogueTransId [((3, 2), 7)] 1 3 5 = proflogueTransId [((3, 2), 7)] 1 3 2 :=
  proflogueTransId_clamp [((3, 2), 7)] 1 3 5 (by decide)

/-! ### C3 : `calculateECHPadding` -/

/-- Unfolding of `calculateECHPadding` without an SNI extension. -/
theorem calculateECHPadding_none (e m : Nat) :
    calculateECHPadding none e m =
      ((m + 9) % sizeW +
        (31 - ((e + (m + 9) % sizeW) % sizeW + (sizeW - 1)) % sizeW % 32)) %
        sizeW := rfl

/-- Unfolding of `calculateECHPadding` with an SNI hostname of length
`l`. -/
theorem calculateECHPadding_some (l e m : Nat) :
    calculateECHPadding (some l) e m =
      ((if l < m then m - l else 0) +
        (31 - ((e + (if l < m then m - l else 0)) % sizeW + (sizeW - 1)) %
          sizeW % 32)) % sizeW := rfl

/-- Claim C3: for every ClientHello, encoded size and maximum name
length (as `size_t` values; `maxLen` small enough that `maxLen + 9`
does not wrap), the returned padding decomposes as a pre-rounding part
plus a rounding amount below 32; the pre-rounding part is
`max(0, maxLen - sniLen)` (truncated subtraction) when the hello has
an SNI extension and `maxLen + 9` otherwise; and the final padded
length `L = encodedSize + padding` satisfies `(L - 1) mod 32 = 31` in
`size_t` arithmetic (equivalently `L mod 32 = 0`). -/
theorem calculateECHPadding_spec (chlo : ClientHello) (sniLen : Option Nat)
    (encodedSize maxLen : Nat)
    (hsni : getSniLen chlo = .ok sniLen)
    (hE : encodedSize < sizeW) (hM : maxLen + 40 < sizeW)
    (hS : ∀ l, sniLen = some l → l < sizeW) :
    ∃ round, round < 32 ∧
      calculateECHPadding sniLen encodedSize maxLen =
        (match sniLen with
          | some l => maxLen - l
          | none => maxLen + 9) + round ∧
      ((encodedSize + calculateECHPadding sniLen encodedSize maxLen) % sizeW)
          % 32 = 0 ∧
      (((encodedSize + calculateECHPadding sniLen encodedSize maxLen) % sizeW +
          (sizeW - 1)) % sizeW) % 32 = 31 := by
  rcases sniLen with _ | l
  · simp only [calculateECHPadding_none]
    refine ⟨((maxLen + 9) % sizeW +
        (31 - ((encodedSize + (maxLen + 9) % sizeW) % sizeW + (sizeW - 1)) %
          sizeW % 32)) % sizeW - (maxLen + 9), ?_, ?_, ?_, ?_⟩ <;>
      (simp only [sizeW] at hE hM ⊢; omega)
  · have hl : l < sizeW := hS l rfl
    simp only [calculateECHPadding_some]
    by_cases hlm : l < maxLen
    · simp only [if_pos hlm]
      refine ⟨(maxLen - l +
          (31 - ((encodedSize + (maxLen - l)) % sizeW + (sizeW - 1)) % sizeW
            % 32)) % sizeW - (maxLen - l), ?_, ?_, ?_, ?_⟩ <;>
        (simp only [sizeW] at hE hM hl ⊢; omega)
    · simp only [if_neg hlm]
      refine ⟨(0 +
          (31 - ((encodedSize + 0) % sizeW + (sizeW - 1)) % sizeW % 32)) %
            sizeW - (maxLen - l), ?_, ?_, ?_, ?_⟩ <;>
        (simp only [sizeW] at hE hM hl ⊢; omega)

/-- Witness for C3 at a concrete input (SNI hostname of length 3,
encoded size 10, maximum name length 50). -/
theorem calculateECHPadding_spec_witness :
    ∃ round, round < 32 ∧
      calculateECHPadding (some 3) 10 50 = (50 - 3) + round ∧
      ((10 + calculateECHPadding (some 3) 10 50) % sizeW) % 32 = 0 ∧
      (((10 + calculateECHPadding (some 3) 10 50) % sizeW + (sizeW - 1)) %
        sizeW) % 32 = 31 :=
  calculateECHPadding_spec
    ⟨[], [⟨serverNameType, .sniList [[7, 7, 7]]⟩]⟩ (some 3) 10 50
    (by decide) (by decide) (by decide) (by intro l hl; cases hl; decide)

/-! ### C2 : `negotiateECHConfig` -/

/-- Facts carried by the suite found by the cipher-suite scan. -/
theorem selectCipherSuite_some_facts (supportedAeads : List Nat)
    (associatedKdf : Nat → Nat) (suites : List HpkeCipherSuite)
    (s : HpkeCipherSuite)
    (h : selectCipherSuite supportedAeads associatedKdf suites = some s) :
    s ∈ suites ∧ s.aead_id ∈ supportedAeads ∧
      s.kdf_id = associatedKdf s.aead_id := by
  unfold selectCipherSuite at h
  have hmem := List.mem_of_find?_eq_some h
  have hp := List.find?_some h
  rw [Bool.and_eq_true, beq_iff_eq] at hp
  exact ⟨hmem, List.elem_iff.1 hp.1, hp.2⟩

/-- Selectability read off the implementation's checks. -/
theorem configOK_iff (supportedKEMs supportedAeads : List Nat)
    (associatedKdf : Nat → Nat) (c : ParsedECHConfig) :
    configOK supportedKEMs supportedAeads associatedKdf c ↔
      echConfigHasMandatoryExtension c = false ∧
      isValidPublicName c.public_name = true ∧
      supportedKEMs.contains c.key_config.kem_id = true ∧
      (selectCipherSuite supportedAeads associatedKdf
        c.key_config.cipher_suites).isSome = true := by
  unfold configOK
  refine and_congr_right fun _ => and_congr_right fun _ => ?_
  refine and_congr ?_ ?_
  · exact (List.elem_iff).symm
  · rw [selectCipherSuite, List.find?_isSome]
    constructor
    · rintro ⟨s, hs, ha, hk⟩
      refine ⟨s, hs, ?_⟩
      rw [Bool.and_eq_true, beq_iff_eq]
      exact ⟨List.elem_iff.2 ha, hk⟩
    · rintro ⟨s, hs, hp⟩
      rw [Bool.and_eq_true, beq_iff_eq] at hp
      exact ⟨s, hs, List.elem_iff.1 hp.1, hp.2⟩

/-- Prepending an unselectable config preserves the success
characterization. -/
theorem negotiatedOK_cons (supportedKEMs supportedAeads : List Nat)
    (associatedKdf : Nat → Nat) (config : ParsedECHConfig)
    (rest : List ParsedECHConfig) (r : NegotiatedECHConfig)
    (hnotok : ¬ configOK supportedKEMs supportedAeads associatedKdf config)
    (h : negotiatedOK supportedKEMs supportedAeads associatedKdf rest r) :
    negotiatedOK supportedKEMs supportedAeads associatedKdf (config :: rest) r := by
  obtain ⟨pre, post, hsplit, hpre, hok, h4, h5, h6⟩ := h
  refine ⟨config :: pre, post, by rw [hsplit]; rfl, ?_, hok, h4, h5, h6⟩
  intro c hc
  rcases List.mem_cons.1 hc with rfl | hc'
  · exact hnotok
  · exact hpre c hc'

/-- Step lemma: a skipped head preserves the full C2
characterization. -/
theorem negotiate_skip_step (config : ParsedECHConfig)
    (rest : List ParsedECHConfig) (supportedKEMs supportedAeads : List Nat)
    (associatedKdf : Nat → Nat)
    (hnotok : ¬ configOK supportedKEMs supportedAeads associatedKdf config)
    (heq : negotiateECHConfig (config :: rest) supportedKEMs supportedAeads
        associatedKdf =
      negotiateECHConfig rest supportedKEMs supportedAeads associatedKdf)
    (ih : (negotiateECHConfig rest supportedKEMs supportedAeads associatedKdf =
          none ↔
        ∀ c ∈ rest, ¬ configOK supportedKEMs supportedAeads associatedKdf c) ∧
      (∀ r, negotiateECHConfig rest supportedKEMs supportedAeads associatedKdf =
          some r →
        negotiatedOK supportedKEMs supportedAeads associatedKdf rest r ∧
        r.cipherSuite ∈ r.config.key_config.cipher_suites ∧
        r.cipherSuite.aead_id ∈ supportedAeads ∧
        r.cipherSuite.kdf_id = associatedKdf r.cipherSuite.aead_id)) :
    (negotiateECHConfig (config :: rest) supportedKEMs supportedAeads
        associatedKdf = none ↔
      ∀ c ∈ config :: rest,
        ¬ configOK supportedKEMs supportedAeads associatedKdf c) ∧
    (∀ r, negotiateECHConfig (config :: rest) supportedKEMs supportedAeads
        associatedKdf = some r →
      negotiatedOK supportedKEMs supportedAeads associatedKdf (config :: rest) r ∧
      r.cipherSuite ∈ r.config.key_config.cipher_suites ∧
      r.cipherSuite.aead_id ∈ supportedAeads ∧
      r.cipherSuite.kdf_id = associatedKdf r.cipherSuite.aead_id) := by
  rw [heq]
  constructor
  · constructor
    · intro hn c hc
      rcases List.mem_cons.1 hc with rfl | hc'
      · exact hnotok
      · exact (ih.1.1 hn) c hc'
    · intro hall
      exact ih.1.2 fun c hc => hall c (List.mem_cons_of_mem _ hc)
  · intro r hr
    obtain ⟨hok, hrest⟩ := ih.2 r hr
    exact ⟨negotiatedOK_cons supportedKEMs supportedAeads associatedKdf config
      rest r hnotok hok, hrest⟩

/-- Claim C2: `negotiateECHConfig` returns the first configuration
with no mandatory extension, a DNS-label-valid public name, a
supported KEM, and a cipher suite whose AEAD is supported with the
matching KDF, together with its config id, maximum name length and
that cipher suite; it returns none iff no configuration satisfies all
four predicates. -/
theorem negotiateECHConfig_first (configs : List ParsedECHConfig)
    (supportedKEMs supportedAeads : List Nat) (associatedKdf : Nat → Nat) :
    (negotiateECHConfig configs supportedKEMs supportedAeads associatedKdf =
        none ↔
      ∀ c ∈ configs, ¬ configOK supportedKEMs supportedAeads associatedKdf c) ∧
    (∀ r, negotiateECHConfig configs supportedKEMs supportedAeads associatedKdf =
        some r →
      negotiatedOK supportedKEMs supportedAeads associatedKdf configs r ∧
      r.cipherSuite ∈ r.config.key_config.cipher_suites ∧
      r.cipherSuite.aead_id ∈ supportedAeads ∧
      r.cipherSuite.kdf_id = associatedKdf r.cipherSuite.aead_id) := by
  induction configs with
  | nil =>
      constructor
      · simp [negotiateECHConfig]
      · intro r h
        simp [negotiateECHConfig] at h
  | cons config rest ih =>
      by_cases hman : echConfigHasMandatoryExtension config = true
      · refine negotiate_skip_step config rest supportedKEMs supportedAeads
          associatedKdf ?_ ?_ ih
        · rw [configOK_iff]
          simp [hman]
        · simp [negotiateECHConfig, hman]
      · have hmanf : echConfigHasMandatoryExtension config = false :=
          Bool.eq_false_iff.mpr hman
        by_cases hval : isValidPublicName config.public_name = true
        · by_cases hkem : supportedKEMs.contains config.key_config.kem_id = true
          · cases hsel : selectCipherSuite supportedAeads associatedKdf
                config.key_config.cipher_suites with
            | none =>
                have hkemMem : config.key_config.kem_id ∈ supportedKEMs :=
                  List.elem_iff.1 hkem
                refine negotiate_skip_step config rest supportedKEMs
                  supportedAeads associatedKdf ?_ ?_ ih
                · rw [configOK_iff]
                  simp [hsel]
                · simp [negotiateECHConfig, hmanf, hval, hkem, hkemMem, hsel]
            | some suite =>
                have hkemMem : config.key_config.kem_id ∈ supportedKEMs :=
                  List.elem_iff.1 hkem
                have hok : configOK supportedKEMs supportedAeads associatedKdf
                    config := by
                  rw [configOK_iff]
                  exact ⟨hmanf, hval, hkem, by simp [hsel]⟩
                have heval : negotiateECHConfig (config :: rest) supportedKEMs
                    supportedAeads associatedKdf =
                    some ⟨config, config.key_config.config_id,
                      config.maximum_name_length, suite⟩ := by
                  simp [negotiateECHConfig, hmanf, hval, hkem, hkemMem, hsel]
                constructor
                · rw [heval]
                  constructor
                  · intro h
                    exact absurd h (by simp)
                  · intro hall
                    exact absurd hok (hall config (List.mem_cons_self config rest))
                · intro r hr
                  rw [heval] at hr
                  have hreq := Option.some.inj hr
                  subst hreq
                  obtain ⟨hsmem, hsa, hsk⟩ := selectCipherSuite_some_facts
                    supportedAeads associatedKdf config.key_config.cipher_suites
                    suite hsel
                  exact ⟨⟨[], rest, rfl, by simp, hok, rfl, rfl, hsel⟩,
                    hsmem, hsa, hsk⟩
          · have hkemNotMem : config.key_config.kem_id ∉ supportedKEMs :=
              fun hm => hkem (List.elem_iff.2 hm)
            refine negotiate_skip_step config rest supportedKEMs supportedAeads
              associatedKdf ?_ ?_ ih
            · rw [configOK_iff]
              simp [hkem, hkemNotMem]
            · simp [negotiateECHConfig, hmanf, hval, hkem, hkemNotMem]
        · refine negotiate_skip_step config rest supportedKEMs supportedAeads
            associatedKdf ?_ ?_ ih
          · rw [configOK_iff]
            simp [hval]
          · simp [negotiateECHConfig, hmanf, hval]

/-- Witness for C2 at a concrete config list: the first config has a
mandatory extension, the second is selected. -/
theorem negotiateECHConfig_first_witness :
    negotiateECHConfig
      [⟨[120], ⟨1, 2, [⟨5, 6⟩]⟩, 3, [32768]⟩,
        ⟨[120], ⟨4, 2, [⟨9, 6⟩, ⟨5, 6⟩]⟩, 7, []⟩]
      [2] [6] (fun _ => 5) =
      some ⟨⟨[120], ⟨4, 2, [⟨9, 6⟩, ⟨5, 6⟩]⟩, 7, []⟩, 4, 7, ⟨5, 6⟩⟩ ∧
    negotiatedOK [2] [6] (fun _ => 5)
      [⟨[120], ⟨1, 2, [⟨5, 6⟩]⟩, 3, [32768]⟩,
        ⟨[120], ⟨4, 2, [⟨9, 6⟩, ⟨5, 6⟩]⟩, 7, []⟩]
      ⟨⟨[120], ⟨4, 2, [⟨9, 6⟩, ⟨5, 6⟩]⟩, 7, []⟩, 4, 7, ⟨5, 6⟩⟩ := by
  have h := (negotiateECHConfig_first
    [⟨[120], ⟨1, 2, [⟨5, 6⟩]⟩, 3, [32768]⟩,
      ⟨[120], ⟨4, 2, [⟨9, 6⟩, ⟨5, 6⟩]⟩, 7, []⟩]
    [2] [6] (fun _ => 5)).2
    ⟨⟨[120], ⟨4, 2, [⟨9, 6⟩, ⟨5, 6⟩]⟩, 7, []⟩, 4, 7, ⟨5, 6⟩⟩ (by decide)
  exact ⟨by decide, h.1⟩

/-! ### C4 : `substituteOuterExtensions` -/

/-- A duplicate check on a fresh type succeeds and records it. -/
theorem dupeCheck_ok_of_not_mem (seen : List Nat) (t : Nat) (h : t ∉ seen) :
    dupeCheck seen t = .ok (t :: seen) := by
  unfold dupeCheck
  rw [if_neg]
  intro hc
  exact h (List.elem_iff.1 hc)

/-- Inversion of a successful duplicate check. -/
theorem dupeCheck_ok_inv (seen : List Nat) (t : Nat) (s' : List Nat)
    (h : dupeCheck seen t = .ok s') : t ∉ seen ∧ s' = t :: seen := by
  unfold dupeCheck at h
  by_cases hc : seen.contains t = true
  · rw [if_pos hc] at h
    exact absurd h (by simp)
  · rw [if_neg hc] at h
    exact ⟨fun hm => hc (List.elem_iff.2 hm), (Except.ok.inj h).symm⟩

/-- Extensions of another type carry no reference list. -/
theorem outerRefTypes_of_ne (e : Extension)
    (h : (e.extension_type == echOuterExtensionsType) = false) :
    outerRefTypes e = none := by
  simp [outerRefTypes, h]

/-- Reference list of an `ech_outer_extensions` extension. -/
theorem outerRefTypes_outerList (t : Nat) (ts : List Nat)
    (h : (t == echOuterExtensionsType) = true) :
    outerRefTypes ⟨t, .outerList ts⟩ = some ts := by
  simp only [outerRefTypes]
  rw [h]
  simp

/-- Unfolding of `flattenTypes` over a cons. -/
theorem flattenTypes_cons (e : Extension) (l : List Extension) :
    flattenTypes (e :: l) =
      (match outerRefTypes e with
        | some ts => e.extension_type :: ts
        | none => [e.extension_type]) ++ flattenTypes l := by
  simp [flattenTypes]

/-- Unfolding of `refsLists` over a cons. -/
theorem refsLists_cons (e : Extension) (l : List Extension) :
    refsLists (e :: l) =
      match outerRefTypes e with
      | some ts => ts :: refsLists l
      | none => refsLists l := by
  unfold refsLists
  rw [List.filterMap_cons]
  cases outerRefTypes e <;> rfl

/-- Unfolding of `specExpansion` over a cons. -/
theorem specExpansion_cons (e : Extension) (l outer : List Extension) :
    specExpansion (e :: l) outer =
      (match outerRefTypes e with
        | some ts => (greedyMatch ts outer).getD []
        | none => [e]) ++ specExpansion l outer := by
  simp [specExpansion]

/-- Successful run of the reference scan: when the referenced types
avoid `encrypted_client_hello`, are distinct and fresh, and resolve
greedily, the scan returns the greedy matches and records the types. -/
theorem scanRefs_ok (ts : List Nat) :
    ∀ (outer : List Extension) (seen : List Nat) (es : List Extension),
      encryptedClientHelloType ∉ ts → ts.Nodup →
      (∀ t ∈ ts, t ∉ seen) →
      greedyMatch ts outer = some es →
      scanRefs ts outer seen = .ok (es, ts.reverse ++ seen) := by
  induction ts with
  | nil =>
      intro outer seen es _ _ _ hg
      have hes : [] = es := Option.some.inj hg
      subst hes
      simp [scanRefs]
  | cons t ts ih =>
      intro outer seen es hech hnd hseen hg
      have ht_ne : (t == encryptedClientHelloType) = false := by
        rw [beq_eq_false_iff_ne]
        intro h
        exact hech (h ▸ List.mem_cons_self t ts)
      unfold greedyMatch at hg
      cases hdw : outer.dropWhile (fun e => !(e.extension_type == t)) with
      | nil =>
          rw [hdw] at hg
          exact absurd hg (by simp)
      | cons e rest =>
          rw [hdw] at hg
          dsimp only at hg
          cases hg2 : greedyMatch ts rest with
          | none =>
              rw [hg2] at hg
              exact absurd hg (by simp)
          | some es' =>
              rw [hg2] at hg
              have hes : e :: es' = es := by
                simpa using hg
              subst hes
              have hrec := ih rest (t :: seen) es'
                (fun hm => hech (List.mem_cons_of_mem t hm))
                (List.nodup_cons.1 hnd).2
                (by
                  intro t' ht'
                  intro hmem
                  rcases List.mem_cons.1 hmem with rfl | hmem'
                  · exact (List.nodup_cons.1 hnd).1 ht'
                  · exact hseen t' (List.mem_cons_of_mem t ht') hmem')
                hg2
              simp only [scanRefs,
                dupeCheck_ok_of_not_mem seen t (hseen t (List.mem_cons_self t ts)),
                ht_ne, hdw, hrec]
              simp

/-- Inversion of a successful reference scan. -/
theorem scanRefs_ok_inv (ts : List Nat) :
    ∀ (outer : List Extension) (seen seen' : List Nat) (es : List Extension),
      scanRefs ts outer seen = .ok (es, seen') →
      seen' = ts.reverse ++ seen ∧ encryptedClientHelloType ∉ ts ∧
        ts.Nodup ∧ (∀ t ∈ ts, t ∉ seen) ∧ greedyMatch ts outer = some es := by
  induction ts with
  | nil =>
      intro outer seen seen' es h
      simp only [scanRefs] at h
      have h1 := Except.ok.inj h
      have hes : es = [] := by
        have := congrArg Prod.fst h1
        exact this.symm
      have hseen : seen' = seen := by
        have := congrArg Prod.snd h1
        exact this.symm
      subst hes
      subst hseen
      exact ⟨by simp, by simp, List.nodup_nil, by simp, rfl⟩
  | cons t ts ih =>
      intro outer seen seen' es h
      unfold scanRefs at h
      cases hdc : dupeCheck seen t with
      | error msg => rw [hdc] at h; exact absurd h (by simp)
      | ok s1 =>
          rw [hdc] at h
          obtain ⟨htseen, hs1⟩ := dupeCheck_ok_inv seen t s1 hdc
          subst hs1
          by_cases hech : (t == encryptedClientHelloType) = true
          · rw [hech] at h
            simp at h
          · rw [Bool.eq_false_iff.mpr hech] at h
            simp only [Bool.false_eq_true, if_false] at h
            cases hdw : outer.dropWhile (fun e => !(e.extension_type == t)) with
            | nil => rw [hdw] at h; exact absurd h (by simp)
            | cons e rest =>
                rw [hdw] at h
                dsimp only at h
                cases hrec : scanRefs ts rest (t :: seen) with
                | error msg => rw [hrec] at h; exact absurd h (by simp)
                | ok p =>
                    rw [hrec] at h
                    obtain ⟨es', seen2⟩ := p
                    dsimp only at h
                    have h1 := Except.ok.inj h
                    have hes : es = e :: es' := (congrArg Prod.fst h1).symm
                    have hsn : seen' = seen2 := (congrArg Prod.snd h1).symm
                    obtain ⟨hseq, hech2, hnd2, hfresh2, hg2⟩ :=
                      ih rest (t :: seen) seen2 es' hrec
                    subst hes
                    refine ⟨?_, ?_, ?_, ?_, ?_⟩
                    · rw [hsn, hseq]
                      simp
                    · intro hm
                      rcases List.mem_cons.1 hm with heq | hm'
                      · exact hech (by rw [heq, beq_self_eq_true])
                      · exact hech2 hm'
                    · refine List.nodup_cons.2 ⟨?_, hnd2⟩
                      intro htm
                      exact (hfresh2 t htm) (List.mem_cons_self t seen)
                    · intro t' ht' hmem
                      rcases List.mem_cons.1 ht' with rfl | ht''
                      · exact htseen hmem
                      · exact (hfresh2 t' ht'') (List.mem_cons_of_mem t hmem)
                    · unfold greedyMatch
                      rw [hdw]
                      dsimp only
                      rw [hg2]
                      rfl

/-- Successful run of the substitution loop: with well-formed, fresh
and duplicate-free reference structure and resolvable references, the
loop returns the specification expansion. -/
theorem substituteAux_ok (outer : List Extension) (inner : List Extension) :
    ∀ (seen : List Nat),
      wellFormedRefs inner →
      (flattenTypes inner).Nodup →
      (∀ t ∈ flattenTypes inner, t ∉ seen) →
      (∀ ts ∈ refsLists inner, encryptedClientHelloType ∉ ts ∧
        ∃ es, greedyMatch ts outer = some es) →
      substituteAux inner outer seen = .ok (specExpansion inner outer) := by
  induction inner with
  | nil =>
      intro seen _ _ _ _
      simp [substituteAux, specExpansion]
  | cons ext rest ih =>
      intro seen hwf hnd hfresh hrefs
      have hwf_rest : wellFormedRefs rest :=
        fun e he => hwf e (List.mem_cons_of_mem ext he)
      have hXfresh : ext.extension_type ∉ seen := by
        apply hfresh
        rw [flattenTypes_cons]
        cases houter : outerRefTypes ext <;> simp
      by_cases hty : (ext.extension_type == echOuterExtensionsType) = true
      · have htyeq : ext.extension_type = echOuterExtensionsType :=
          beq_iff_eq.1 hty
        obtain ⟨ts, hdata⟩ := hwf ext (List.mem_cons_self ext rest) htyeq
        have hort : outerRefTypes ext = some ts := by
          simp [outerRefTypes, hty, hdata]
        have hflat : flattenTypes (ext :: rest) =
            ext.extension_type :: (ts ++ flattenTypes rest) := by
          rw [flattenTypes_cons, hort]
          simp
        rw [hflat] at hnd hfresh
        obtain ⟨hna, hnd2⟩ := List.nodup_cons.1 hnd
        obtain ⟨hndts, hndrest, hdisj⟩ := List.nodup_append.1 hnd2
        obtain ⟨hechts, es, hg⟩ := hrefs ts (by
          rw [refsLists_cons, hort]
          exact List.mem_cons_self _ _)
        have hscan := scanRefs_ok ts outer (ext.extension_type :: seen) es
          hechts hndts
          (by
            intro t ht hmem
            rcases List.mem_cons.1 hmem with heq | hmem'
            · exact hna (heq ▸ List.mem_append_left _ ht)
            · exact hfresh t (List.mem_cons_of_mem _ (List.mem_append_left _ ht)) hmem')
          hg
        have hrec := ih (ts.reverse ++ ext.extension_type :: seen)
          hwf_rest hndrest
          (by
            intro t ht hmem
            rcases List.mem_append.1 hmem with hmem' | hmem'
            · exact hdisj (List.mem_reverse.1 hmem') ht
            · rcases List.mem_cons.1 hmem' with heq | hmem''
              · exact hna (heq ▸ List.mem_append_right _ ht)
              · exact hfresh t (List.mem_cons_of_mem _ (List.mem_append_right _ ht)) hmem'')
          (by
            intro ts' hts'
            apply hrefs
            rw [refsLists_cons, hort]
            exact List.mem_cons_of_mem _ hts')
        simp only [substituteAux]
        rw [dupeCheck_ok_of_not_mem seen _ hXfresh]
        dsimp only
        rw [if_pos hty, hdata]
        dsimp only
        rw [hscan]
        dsimp only
        rw [hrec]
        dsimp only
        rw [specExpansion_cons, hort]
        dsimp only
        rw [hg]
        rfl
      · have hort : outerRefTypes ext = none :=
          outerRefTypes_of_ne ext (Bool.eq_false_iff.mpr hty)
        have hflat : flattenTypes (ext :: rest) =
            ext.extension_type :: flattenTypes rest := by
          rw [flattenTypes_cons, hort]
          rfl
        rw [hflat] at hnd hfresh
        obtain ⟨hna, hndrest⟩ := List.nodup_cons.1 hnd
        have hrec := ih (ext.extension_type :: seen) hwf_rest hndrest
          (by
            intro t ht hmem
            rcases List.mem_cons.1 hmem with heq | hmem'
            · exact hna (heq ▸ ht)
            · exact hfresh t (List.mem_cons_of_mem _ ht) hmem')
          (by
            intro ts' hts'
            apply hrefs
            rw [refsLists_cons, hort]
            exact hts')
        simp only [substituteAux]
        rw [dupeCheck_ok_of_not_mem seen _ hXfresh]
        dsimp only
        rw [if_neg hty, hrec]
        dsimp only
        rw [specExpansion_cons, hort]
        rfl

/-- Inversion of a successful substitution run: success forces
well-formed payloads, duplicate-free and fresh flattened types, and
resolvable reference lists avoiding `encrypted_client_hello`. -/
theorem substituteAux_ok_inv (outer : List Extension) (inner : List Extension) :
    ∀ (seen : List Nat) (res : List Extension),
      substituteAux inner outer seen = .ok res →
      wellFormedRefs inner ∧ (flattenTypes inner).Nodup ∧
        (∀ t ∈ flattenTypes inner, t ∉ seen) ∧
        (∀ ts ∈ refsLists inner, encryptedClientHelloType ∉ ts ∧
          greedyMatch ts outer ≠ none) := by
  induction inner with
  | nil =>
      intro seen res _
      refine ⟨fun e he => absurd he (List.not_mem_nil e), ?_, ?_, ?_⟩
      · simp [flattenTypes]
      · simp [flattenTypes]
      · simp [refsLists]
  | cons ext rest ih =>
      intro seen res h
      unfold substituteAux at h
      cases hdc : dupeCheck seen ext.extension_type with
      | error msg => rw [hdc] at h; exact absurd h (by simp)
      | ok s1 =>
          rw [hdc] at h
          dsimp only at h
          obtain ⟨hXfresh, hs1⟩ := dupeCheck_ok_inv _ _ _ hdc
          subst hs1
          by_cases hty : (ext.extension_type == echOuterExtensionsType) = true
          · rw [if_pos hty] at h
            cases hdata : ext.extension_data with
            | outerList ts =>
                rw [hdata] at h
                dsimp only at h
                cases hscan : scanRefs ts outer (ext.extension_type :: seen) with
                | error msg => rw [hscan] at h; exact absurd h (by simp)
                | ok p =>
                    rw [hscan] at h
                    obtain ⟨es, seen2⟩ := p
                    dsimp only at h
                    cases hrec2 : substituteAux rest outer seen2 with
                    | error msg => rw [hrec2] at h; exact absurd h (by simp)
                    | ok tail =>
                        obtain ⟨hseq, hechts, hndts, hfreshts, hg⟩ :=
                          scanRefs_ok_inv ts outer (ext.extension_type :: seen)
                            seen2 es hscan
                        obtain ⟨hwf_rest, hnd_rest, hfresh_rest, hrefs_rest⟩ :=
                          ih seen2 tail hrec2
                        have htyeq : ext.extension_type = echOuterExtensionsType :=
                          beq_iff_eq.1 hty
                        have hort : outerRefTypes ext = some ts := by
                          simp [outerRefTypes, hty, hdata]
                        have hfresh_rest' : ∀ t ∈ flattenTypes rest,
                            t ∉ ts ∧ t ≠ ext.extension_type ∧ t ∉ seen := by
                          intro t ht
                          have := hfresh_rest t ht
                          rw [hseq] at this
                          refine ⟨?_, ?_, ?_⟩
                          · intro hm
                            exact this (List.mem_append_left _ (List.mem_reverse.2 hm))
                          · intro heq
                            exact this (List.mem_append_right _
                              (heq ▸ List.mem_cons_self _ _))
                          · intro hm
                            exact this (List.mem_append_right _
                              (List.mem_cons_of_mem _ hm))
                        refine ⟨?_, ?_, ?_, ?_⟩
                        · intro e he htyeq'
                          rcases List.mem_cons.1 he with rfl | he'
                          · exact ⟨ts, hdata⟩
                          · exact hwf_rest e he' htyeq'
                        · rw [flattenTypes_cons, hort]
                          dsimp only
                          rw [List.cons_append]
                          refine List.nodup_cons.2 ⟨?_, ?_⟩
                          · intro hm
                            rcases List.mem_append.1 hm with hm' | hm'
                            · exact (hfreshts _ hm') (List.mem_cons_self _ _)
                            · exact ((hfresh_rest' _ hm').2.1) rfl
                          · refine List.nodup_append.2 ⟨hndts, hnd_rest, ?_⟩
                            intro t hts htr
                            exact (hfresh_rest' t htr).1 hts
                        · rw [flattenTypes_cons, hort]
                          dsimp only
                          rw [List.cons_append]
                          intro t ht hmem
                          rcases List.mem_cons.1 ht with rfl | ht'
                          · exact hXfresh hmem
                          · rcases List.mem_append.1 ht' with hm' | hm'
                            · exact (hfreshts t hm') (List.mem_cons_of_mem _ hmem)
                            · exact (hfresh_rest' t hm').2.2 hmem
                        · intro ts' hts'
                          rw [refsLists_cons, hort] at hts'
                          dsimp only at hts'
                          rcases List.mem_cons.1 hts' with rfl | hts''
                          · refine ⟨hechts, ?_⟩
                            rw [hg]
                            simp
                          · exact hrefs_rest ts' hts''
            | raw bs => rw [hdata] at h; exact absurd h (by simp)
            | sniList hs => rw [hdata] at h; exact absurd h (by simp)
            | echData k a c e p => rw [hdata] at h; exact absurd h (by simp)
          · rw [if_neg hty] at h
            cases hrec2 : substituteAux rest outer (ext.extension_type :: seen) with
            | error msg => rw [hrec2] at h; exact absurd h (by simp)
            | ok tail =>
                obtain ⟨hwf_rest, hnd_rest, hfresh_rest, hrefs_rest⟩ :=
                  ih (ext.extension_type :: seen) tail hrec2
                have hort : outerRefTypes ext = none :=
                  outerRefTypes_of_ne ext (Bool.eq_false_iff.mpr hty)
                refine ⟨?_, ?_, ?_, ?_⟩
                · intro e he htyeq'
                  rcases List.mem_cons.1 he with rfl | he'
                  · exact absurd (by rw [htyeq', beq_self_eq_true]) hty
                  · exact hwf_rest e he' htyeq'
                · rw [flattenTypes_cons, hort]
                  refine List.nodup_cons.2 ⟨?_, hnd_rest⟩
                  intro hm
                  exact (hfresh_rest _ hm) (List.mem_cons_self _ _)
                · rw [flattenTypes_cons, hort]
                  intro t ht hmem
                  rcases List.mem_cons.1 ht with rfl | ht'
                  · exact hXfresh hmem
                  · exact (hfresh_rest t ht') (List.mem_cons_of_mem _ hmem)
                · intro ts' hts'
                  rw [refsLists_cons, hort] at hts'
                  exact hrefs_rest ts' hts'

/-- Claim C4: `substituteOuterExtensions` throws `OuterExtensionsError`
exactly when the expanded inner extension list would contain a
duplicate extension type, when an `ech_outer_extensions` list
references the `encrypted_client_hello` extension itself, or when a
referenced extension type cannot be found scanning the outer hello's
extensions in order; otherwise it returns the inner extensions with
each reference list replaced, in order, by the referenced outer
extensions. -/
theorem substituteOuterExtensions_spec (inner outer : List Extension)
    (hwf : wellFormedRefs inner) :
    ((∃ msg, substituteOuterExtensions inner outer = .error msg) ↔
      substituteErrorCond inner outer) ∧
    (¬ substituteErrorCond inner outer →
      substituteOuterExtensions inner outer =
        .ok (specExpansion inner outer)) := by
  have hok : ¬ substituteErrorCond inner outer →
      substituteOuterExtensions inner outer =
        .ok (specExpansion inner outer) := by
    intro hnc
    unfold substituteErrorCond at hnc
    push_neg at hnc
    obtain ⟨hnd, hech, hmiss⟩ := hnc
    unfold substituteOuterExtensions
    apply substituteAux_ok outer inner [] hwf hnd
    · intro t _ hmem
      exact absurd hmem (List.not_mem_nil t)
    · intro ts hts
      refine ⟨hech ts hts, ?_⟩
      cases hg : greedyMatch ts outer with
      | none => exact absurd hg (hmiss ts hts)
      | some es => exact ⟨es, rfl⟩
  refine ⟨⟨?_, ?_⟩, hok⟩
  · rintro ⟨msg, herr⟩
    by_contra hnc
    rw [hok hnc] at herr
    exact absurd herr (by simp)
  · intro hcond
    cases hres : substituteOuterExtensions inner outer with
    | error msg => exact ⟨msg, rfl⟩
    | ok res =>
        exfalso
        unfold substituteOuterExtensions at hres
        obtain ⟨_, hnd, _, hrefs⟩ := substituteAux_ok_inv outer inner [] res hres
        rcases hcond with hdup | ⟨ts, hts, hechm⟩ | ⟨ts, hts, hnone⟩
        · exact hdup hnd
        · exact (hrefs ts hts).1 hechm
        · exact (hrefs ts hts).2 hnone

/-- Witness for C4 at a concrete resolvable input. -/
theorem substituteOuterExtensions_spec_witness :
    substituteOuterExtensions
      [⟨64768, .outerList [10]⟩, ⟨20, .raw []⟩] [⟨10, .raw [5]⟩] =
      .ok (specExpansion [⟨64768, .outerList [10]⟩, ⟨20, .raw []⟩]
        [⟨10, .raw [5]⟩]) ∧
    specExpansion [⟨64768, .outerList [10]⟩, ⟨20, .raw []⟩] [⟨10, .raw [5]⟩] =
      [⟨10, .raw [5]⟩, ⟨20, .raw []⟩] :=
  ⟨(substituteOuterExtensions_spec
      [⟨64768, .outerList [10]⟩, ⟨20, .raw []⟩] [⟨10, .raw [5]⟩]
      (by
        intro e he heq
        rcases List.mem_cons.1 he with rfl | he'
        · exact ⟨[10], rfl⟩
        · rcases List.mem_cons.1 he' with rfl | he''
          · exact absurd heq (by decide)
          · exact absurd he'' (List.not_mem_nil e))).2
    (by
      unfold substituteErrorCond
      decide),
    by decide⟩

/-! ### C5 : acceptance confirmation -/

/-- Taking a prefix strictly before an updated index ignores the
update. -/
theorem take_set_of_le (l : List Nat) :
    ∀ (i n : Nat) (v : Nat), n ≤ i → (l.set i v).take n = l.take n := by
  induction l with
  | nil => intro i n v _; simp
  | cons a l ih =>
      intro i n v h
      cases n with
      | zero => simp
      | succ n =>
          cases i with
          | zero => omega
          | succ i =>
              simp only [List.set_cons_succ, List.take_succ_cons]
              rw [ih i n v (by omega)]

/-- Length of the confirmation prefix of the secret. -/
theorem conf_take_length (conf : List Nat)
    (h : kEchAcceptConfirmationSize ≤ conf.length) :
    (conf.take kEchAcceptConfirmationSize).length = kEchAcceptConfirmationSize := by
  simp [List.length_take]
  omega

/-- Random field produced by `setAcceptConfirmation`. -/
theorem setAcceptConfirmation_random (getSecret : Nat → List Nat → List Nat)
    (transcript : List Nat) (shlo : ServerHello) :
    (setAcceptConfirmation getSecret transcript shlo).random =
      shlo.random.take (shlo.random.length - kEchAcceptConfirmationSize) ++
        (calculateAcceptConfirmation getSecret transcript shlo).take
          kEchAcceptConfirmationSize := rfl

/-- Claim C5: for every ServerHello, transcript, and scheduler (the
secret-derivation function, required to produce at least 8 bytes),
`setAcceptConfirmation` followed by `checkECHAccepted` with the same
transcript and scheduler returns true, and flipping any one of the 8
confirmation bytes (the last 8 bytes of `ServerHello.random`) makes
`checkECHAccepted` return false. -/
theorem ech_accept_confirmation (getSecret : Nat → List Nat → List Nat)
    (transcript : List Nat) (shlo : ServerHello)
    (hr : shlo.random.length = 32)
    (hs : ∀ b, kEchAcceptConfirmationSize ≤
      (getSecret echAcceptConfirmationLabel b).length) :
    checkECHAccepted getSecret transcript
      (setAcceptConfirmation getSecret transcript shlo) = true ∧
    (∀ i < kEchAcceptConfirmationSize, ∀ v,
      v ≠ (setAcceptConfirmation getSecret transcript shlo).random.getD
        (24 + i) 0 →
      checkECHAccepted getSecret transcript
        { setAcceptConfirmation getSecret transcript shlo with
          random := (setAcceptConfirmation getSecret transcript shlo).random.set
            (24 + i) v } = false) := by
  set conf := calculateAcceptConfirmation getSecret transcript shlo with hconf
  have hconflen : kEchAcceptConfirmationSize ≤ conf.length := hs _
  have hc8 : (conf.take kEchAcceptConfirmationSize).length =
      kEchAcceptConfirmationSize := conf_take_length conf hconflen
  have htk : (shlo.random.take
      (shlo.random.length - kEchAcceptConfirmationSize)).length = 24 := by
    simp [List.length_take, kEchAcceptConfirmationSize, hr]
  have hrand := setAcceptConfirmation_random getSecret transcript shlo
  rw [← hconf] at hrand
  have hlen' : (setAcceptConfirmation getSecret transcript shlo).random.length
      = 32 := by
    rw [hrand, List.length_append, htk, hc8]
    decide
  have hdummy : makeDummyServerHello
      (setAcceptConfirmation getSecret transcript shlo) =
      makeDummyServerHello shlo := by
    unfold makeDummyServerHello
    congr 1
    rw [hlen', show (32 : Nat) - kEchAcceptConfirmationSize = 24 by decide,
      hrand, List.take_left' htk]
  have hconf' : calculateAcceptConfirmation getSecret transcript
      (setAcceptConfirmation getSecret transcript shlo) = conf := by
    rw [hconf]
    unfold calculateAcceptConfirmation
    rw [hdummy]
  have hdropLen : (setAcceptConfirmation getSecret transcript
      shlo).random.length - kEchAcceptConfirmationSize = 24 := by
    rw [hlen']
    decide
  constructor
  · unfold checkECHAccepted
    rw [hconf', hdropLen, hrand, List.drop_left' htk]
    simp
  · intro i hi v hv
    have hgd : (setAcceptConfirmation getSecret transcript shlo).random.getD
        (24 + i) 0 = (conf.take kEchAcceptConfirmationSize).getD i 0 := by
      rw [List.getD_eq_getElem?_getD, List.getD_eq_getElem?_getD, hrand,
        List.getElem?_append_right (by rw [htk]; omega)]
      rw [htk]
      congr 2
      omega
    have hdummy2 : makeDummyServerHello
        { setAcceptConfirmation getSecret transcript shlo with
          random := (setAcceptConfirmation getSecret transcript
            shlo).random.set (24 + i) v } =
        makeDummyServerHello shlo := by
      rw [← hdummy]
      unfold makeDummyServerHello
      congr 1
      dsimp only
      rw [List.length_set, hlen',
        show (32 : Nat) - kEchAcceptConfirmationSize = 24 by decide,
        take_set_of_le _ (24 + i) 24 v (by omega)]
    have hconf2 : calculateAcceptConfirmation getSecret transcript
        { setAcceptConfirmation getSecret transcript shlo with
          random := (setAcceptConfirmation getSecret transcript
            shlo).random.set (24 + i) v } = conf := by
      rw [hconf]
      unfold calculateAcceptConfirmation
      rw [hdummy2]
    unfold checkECHAccepted
    rw [hconf2]
    have hlenset : ((setAcceptConfirmation getSecret transcript
        shlo).random.set (24 + i) v).length - kEchAcceptConfirmationSize
        = 24 := by
      rw [List.length_set, hlen']
      decide
    rw [hlenset, ← List.set_drop]
    rw [show (setAcceptConfirmation getSecret transcript shlo).random.drop 24 =
        conf.take kEchAcceptConfirmationSize from by
      rw [hrand, List.drop_left' htk]]
    apply beq_eq_false_iff_ne.mpr
    intro heq
    have hgv := congrArg (fun l => l[i]?) heq
    simp only at hgv
    rw [List.getElem?_set_self (by rw [hc8]; exact hi)] at hgv
    apply hv
    rw [hgd, List.getD_eq_getElem?_getD, ← hgv]
    rfl

/-- Witness for C5 at a concrete hello, transcript and scheduler. -/
theorem ech_accept_confirmation_witness :
    checkECHAccepted (fun _ b => List.replicate 8 (b.length % 256)) [3]
      (setAcceptConfirmation (fun _ b => List.replicate 8 (b.length % 256)) [3]
        ⟨0, List.replicate 32 1, [], 0, 0, []⟩) = true ∧
    checkECHAccepted (fun _ b => List.replicate 8 (b.length % 256)) [3]
      { setAcceptConfirmation (fun _ b => List.replicate 8 (b.length % 256)) [3]
          ⟨0, List.replicate 32 1, [], 0, 0, []⟩ with
        random := (setAcceptConfirmation
            (fun _ b => List.replicate 8 (b.length % 256)) [3]
            ⟨0, List.replicate 32 1, [], 0, 0, []⟩).random.set 24
          (1 + (setAcceptConfirmation
            (fun _ b => List.replicate 8 (b.length % 256)) [3]
            ⟨0, List.replicate 32 1, [], 0, 0, []⟩).random.getD 24 0) } =
      false :=
  ⟨(ech_accept_confirmation (fun _ b => List.replicate 8 (b.length % 256)) [3]
      ⟨0, List.replicate 32 1, [], 0, 0, []⟩ (by decide)
      (fun b => by simp [kEchAcceptConfirmationSize])).1,
    (ech_accept_confirmation (fun _ b => List.replicate 8 (b.length % 256)) [3]
      ⟨0, List.replicate 32 1, [], 0, 0, []⟩ (by decide)
      (fun b => by simp [kEchAcceptConfirmationSize])).2 0
      (by decide) _ (by simp only [Nat.add_zero]; omega)⟩

/-! ### C1 : encryption/decryption round trip -/

/-- Decoding inverts the byte-sequence encoding, leaving the rest. -/
theorem decBytes_enc (bs r : List Nat) :
    decBytes (encBytes bs ++ r) = some (bs, r) := by
  unfold encBytes decBytes
  rw [List.cons_append]
  simp [List.take_left' rfl, List.drop_left' rfl]

/-- Decoding inverts the byte-sequence-list encoding. -/
theorem decBytesList_enc (l : List (List Nat)) (r : List Nat) :
    decBytesList (encBytesList l ++ r) = some (l, r) := by
  unfold encBytesList decBytesList
  rw [List.cons_append]
  suffices h : ∀ (l : List (List Nat)) (r : List Nat),
      decBytesListAux l.length ((l.map encBytes).flatten ++ r) = some (l, r) by
    exact h l r
  intro l
  induction l with
  | nil => intro r; simp [decBytesListAux]
  | cons b l ih =>
      intro r
      simp only [List.length_cons, List.map_cons, List.flatten_cons,
        decBytesListAux]
      rw [List.append_assoc, decBytes_enc]
      dsimp only
      rw [ih r]

/-- Decoding inverts the extension-payload encoding. -/
theorem decExtData_enc (d : ExtData) (r : List Nat) :
    decExtData (encExtData d ++ r) = some (d, r) := by
  cases d with
  | raw bs =>
      simp only [encExtData, List.cons_append, decExtData]
      rw [decBytes_enc]
      rfl
  | outerList ts =>
      simp only [encExtData, List.cons_append, decExtData]
      rw [decBytes_enc]
      rfl
  | sniList hs =>
      simp only [encExtData, List.cons_append, decExtData]
      rw [decBytesList_enc]
      rfl
  | echData k a c e p =>
      simp only [encExtData, List.cons_append, decExtData]
      rw [List.append_assoc, decBytes_enc]
      dsimp only
      rw [decBytes_enc]

/-- Decoding inverts the extension encoding. -/
theorem decExt_enc (e : Extension) (r : List Nat) :
    decExt (encExt e ++ r) = some (e, r) := by
  unfold encExt decExt
  rw [List.cons_append]
  dsimp only
  rw [decExtData_enc]
  rfl

/-- Decoding inverts the counted extension-list encoding. -/
theorem decExtListAux_enc (l : List Extension) (r : List Nat) :
    decExtListAux l.length ((l.map encExt).flatten ++ r) = some (l, r) := by
  induction l generalizing r with
  | nil => simp [decExtListAux]
  | cons e l ih =>
      simp only [List.length_cons, List.map_cons, List.flatten_cons,
        decExtListAux]
      rw [List.append_assoc, decExt_enc]
      dsimp only
      rw [ih r]

/-- Decoding inverts the client-hello encoding, consuming exactly the
encoding and leaving the rest untouched. -/
theorem decodeCH_enc (ch : ClientHello) (r : List Nat) :
    decodeCH (encodeCH ch ++ r) = some (ch, r) := by
  unfold encodeCH decodeCH
  rw [List.append_assoc, decBytes_enc]
  dsimp only
  rw [List.cons_append]
  dsimp only
  rw [decExtListAux_enc]

/-- Length of the authentication tag. -/
theorem padTag_length (n : Nat) (bs : List Nat) : (padTag n bs).length = n := by
  simp [padTag, List.length_take]
  omega

/-- Length of a sealed ciphertext. -/
theorem hpkeSeal_length (ctx : HpkeContextModel) (aad pt : List Nat) :
    (hpkeSeal ctx aad pt).length = pt.length + ctx.overhead := by
  simp [hpkeSeal, padTag_length]

/-- Opening with the sealing AAD recovers the plaintext. -/
theorem hpkeOpen_seal (ctx : HpkeContextModel) (aad pt : List Nat) :
    hpkeOpen ctx aad (hpkeSeal ctx aad pt) = .ok pt := by
  unfold hpkeOpen
  have hlen : (hpkeSeal ctx aad pt).length = pt.length + ctx.overhead :=
    hpkeSeal_length ctx aad pt
  rw [hlen, show pt.length + ctx.overhead - ctx.overhead = pt.length by omega]
  rw [if_pos]
  · unfold hpkeSeal
    rw [List.take_left' rfl]
  · constructor
    · unfold hpkeSeal
      exact List.drop_left' rfl
    · omega

/-- Zeroing the first ECH extension of the wire extension list. -/
theorem zeroFirstEchPayload_wire (outerExts : List Extension)
    (hno : ∀ e ∈ outerExts, e.extension_type ≠ encryptedClientHelloType)
    (ech : OuterECHClientHello) (tailExts : List Extension) :
    zeroFirstEchPayload (outerExts ++ encodeECHExt ech :: tailExts) =
      .ok (outerExts ++ encodeECHExt
        { ech with payload := List.replicate ech.payload.length 0 } ::
          tailExts) := by
  induction outerExts with
  | nil =>
      simp only [List.nil_append]
      unfold zeroFirstEchPayload
      rw [if_pos (by simp [encodeECHExt])]
      rfl
  | cons e rest ih =>
      simp only [List.cons_append]
      unfold zeroFirstEchPayload
      rw [if_neg (by
        simp only [beq_iff_eq]
        exact hno e (List.mem_cons_self e rest))]
      rw [ih (fun e' he' => hno e' (List.mem_cons_of_mem e he'))]
      rfl

/-- Greedy resolution is stable under extending the outer list. -/
theorem greedyMatch_append (ts : List Nat) :
    ∀ (l l' : List Extension) (es : List Extension),
      greedyMatch ts l = some es → greedyMatch ts (l ++ l') = some es := by
  induction ts with
  | nil =>
      intro l l' es h
      exact h ▸ rfl
  | cons t ts ih =>
      intro l l' es h
      unfold greedyMatch at h ⊢
      cases hdw : l.dropWhile (fun e => !(e.extension_type == t)) with
      | nil => rw [hdw] at h; exact absurd h (by simp)
      | cons e rest =>
          rw [hdw] at h
          dsimp only at h
          rw [List.dropWhile_append, hdw]
          simp only [List.isEmpty_cons, Bool.false_eq_true, if_false,
            List.cons_append]
          cases hg : greedyMatch ts rest with
          | none => rw [hg] at h; exact absurd h (by simp)
          | some es' =>
              rw [hg] at h
              rw [ih rest l' es' hg]
              exact h

/-- Extension lists with no `ech_outer_extensions` extension flatten
to their own types. -/
theorem flattenTypes_no_refs (l : List Extension)
    (h : ∀ e ∈ l, e.extension_type ≠ echOuterExtensionsType) :
    flattenTypes l = l.map (fun e => e.extension_type) := by
  induction l with
  | nil => rfl
  | cons e rest ih =>
      rw [flattenTypes_cons,
        outerRefTypes_of_ne e (beq_eq_false_iff_ne.mpr
          (h e (List.mem_cons_self e rest)))]
      rw [ih (fun e' he' => h e' (List.mem_cons_of_mem e he'))]
      rfl

/-- Extension lists with no `ech_outer_extensions` extension carry no
reference lists. -/
theorem refsLists_no_refs (l : List Extension)
    (h : ∀ e ∈ l, e.extension_type ≠ echOuterExtensionsType) :
    refsLists l = [] := by
  induction l with
  | nil => rfl
  | cons e rest ih =>
      rw [refsLists_cons,
        outerRefTypes_of_ne e (beq_eq_false_iff_ne.mpr
          (h e (List.mem_cons_self e rest)))]
      exact ih (fun e' he' => h e' (List.mem_cons_of_mem e he'))

/-- Extension lists with no `ech_outer_extensions` extension expand to
themselves. -/
theorem specExpansion_no_refs (l : List Extension) (outer : List Extension)
    (h : ∀ e ∈ l, e.extension_type ≠ echOuterExtensionsType) :
    specExpansion l outer = l := by
  induction l with
  | nil => rfl
  | cons e rest ih =>
      rw [specExpansion_cons,
        outerRefTypes_of_ne e (beq_eq_false_iff_ne.mpr
          (h e (List.mem_cons_self e rest)))]
      rw [ih (fun e' he' => h e' (List.mem_cons_of_mem e he'))]
      rfl

/-- Distribution of `flattenTypes` over append. -/
theorem flattenTypes_append (a b : List Extension) :
    flattenTypes (a ++ b) = flattenTypes a ++ flattenTypes b := by
  simp [flattenTypes]

/-- Distribution of `refsLists` over append. -/
theorem refsLists_append (a b : List Extension) :
    refsLists (a ++ b) = refsLists a ++ refsLists b := by
  simp [refsLists]

/-- Distribution of `specExpansion` over append. -/
theorem specExpansion_append (a b outer : List Extension) :
    specExpansion (a ++ b) outer =
      specExpansion a outer ++ specExpansion b outer := by
  simp [specExpansion]

/-- Replacement by type skips a prefix with no matching type. -/
theorem replaceFirst_append_of_no_match (A : List Extension)
    (B : List Extension) (t : Nat) (r : Extension)
    (h : ∀ e ∈ A, (e.extension_type == t) = false) :
    replaceFirstWithType (A ++ B) t r = A ++ replaceFirstWithType B t r := by
  induction A with
  | nil => rfl
  | cons e rest ih =>
      simp only [List.cons_append, replaceFirstWithType, List.append_eq]
      rw [h e (List.mem_cons_self e rest)]
      simp only [Bool.false_eq_true, if_false]
      rw [ih (fun e' he' => h e' (List.mem_cons_of_mem e he'))]

/-- Replacement by type rewrites a matching head. -/
theorem replaceFirst_cons_pos (e : Extension) (l : List Extension) (t : Nat)
    (r : Extension) (h : (e.extension_type == t) = true) :
    replaceFirstWithType (e :: l) t r = r :: l := by
  simp [replaceFirstWithType, h]

/-- Erasing the replaced types one by one removes exactly the
remaining replaced extensions. -/
theorem foldl_eraseP_mid (refsExt : Extension) (post : List Extension) :
    ∀ (ms : List Extension) (pre : List Extension),
      (∀ e ∈ pre, ∀ m ∈ ms, e.extension_type ≠ m.extension_type) →
      (∀ m ∈ ms, refsExt.extension_type ≠ m.extension_type) →
      ((ms.map (fun e => e.extension_type)).Nodup) →
      (ms.map (fun e => e.extension_type)).foldl
        (fun acc t' => acc.eraseP (fun e => e.extension_type == t'))
        (pre ++ refsExt :: (ms ++ post)) = pre ++ refsExt :: post := by
  intro ms
  induction ms with
  | nil => intro pre _ _ _; rfl
  | cons m ms ih =>
      intro pre hpre hrefs hnd
      simp only [List.map_cons, List.foldl_cons]
      have herase : (pre ++ refsExt :: (m :: ms ++ post)).eraseP
          (fun e => e.extension_type == m.extension_type) =
          pre ++ refsExt :: (ms ++ post) := by
        rw [List.eraseP_append_right _ (by
          intro b hb
          simp only [beq_iff_eq]
          exact hpre b hb m (List.mem_cons_self m ms))]
        rw [List.eraseP_cons_of_neg (by
          simp only [beq_iff_eq]
          exact hrefs m (List.mem_cons_self m ms))]
        rw [List.cons_append,
          List.eraseP_cons_of_pos (by simp)]
      rw [herase]
      exact ih pre
        (fun e he m' hm' => hpre e he m' (List.mem_cons_of_mem m hm'))
        (fun m' hm' => hrefs m' (List.mem_cons_of_mem m hm'))
        (List.nodup_cons.1 hnd).2

/-- Structure of `generateAndReplaceOuterExtensions` on a contiguous
block of outer-listed extensions: the block collapses to one
`ech_outer_extensions` reference extension. -/
theorem genReplace_contiguous (pre mid post : List Extension)
    (outerTypes : List Nat)
    (hpre : ∀ e ∈ pre, outerTypes.contains e.extension_type = false)
    (hpost : ∀ e ∈ post, outerTypes.contains e.extension_type = false)
    (hmid : ∀ e ∈ mid, outerTypes.contains e.extension_type = true)
    (hnd : ((pre ++ (mid ++ post)).map (fun e => e.extension_type)).Nodup)
    (hmid_ne_ech : ∀ e ∈ mid, e.extension_type ≠ echOuterExtensionsType)
    (hmid_ne : mid ≠ []) :
    generateAndReplaceOuterExtensions (pre ++ (mid ++ post)) outerTypes =
      pre ++ (⟨echOuterExtensionsType,
        .outerList (mid.map (fun e => e.extension_type))⟩ :: post) := by
  have hfilter : (pre ++ (mid ++ post)).filter
      (fun e => outerTypes.contains e.extension_type) = mid := by
    rw [List.filter_append, List.filter_append,
      List.filter_eq_self.2 hmid,
      List.filter_eq_nil_iff.2 (by
        intro a ha
        rw [hpre a ha]
        simp),
      List.filter_eq_nil_iff.2 (by
        intro a ha
        rw [hpost a ha]
        simp)]
    simp
  cases hm : mid with
  | nil => exact absurd hm hmid_ne
  | cons m ms =>
      subst hm
      unfold generateAndReplaceOuterExtensions
      rw [hfilter]
      simp only [List.map_cons]
      have hnd' := hnd
      rw [List.map_append, List.map_append, List.map_cons] at hnd'
      obtain ⟨hndpre, hndrest, hdisj⟩ := List.nodup_append.1 hnd'
      obtain ⟨hmnotin, hndrest2⟩ := List.nodup_cons.1 hndrest
      obtain ⟨hndms, hndpost, hdisj2⟩ := List.nodup_append.1 hndrest2
      have hreplace : replaceFirstWithType (pre ++ (m :: ms ++ post))
          m.extension_type
          ⟨echOuterExtensionsType,
            .outerList (m.extension_type :: ms.map (fun e => e.extension_type))⟩ =
          pre ++ ⟨echOuterExtensionsType,
            .outerList (m.extension_type :: ms.map (fun e => e.extension_type))⟩ ::
            (ms ++ post) := by
        rw [replaceFirst_append_of_no_match _ _ _ _ (by
          intro e he
          rw [beq_eq_false_iff_ne]
          intro heq
          have := hpre e he
          rw [heq] at this
          rw [hmid m (List.mem_cons_self m ms)] at this
          simp at this)]
        rw [List.cons_append, replaceFirst_cons_pos _ _ _ _ (by simp)]
      rw [hreplace]
      exact foldl_eraseP_mid _ post ms pre
        (by
          intro e he m' hm'
          intro heq
          exact hdisj (List.mem_map_of_mem _ he)
            (by
              rw [heq]
              exact List.mem_cons_of_mem _ (List.mem_append_left _
                (List.mem_map_of_mem _ hm'))))
        (by
          intro m' hm'
          intro heq
          exact (hmid_ne_ech m' (List.mem_cons_of_mem m hm')) heq.symm)
        hndms

/-- `generateAndReplaceOuterExtensions` is the identity when no inner
extension is outer-listed. -/
theorem genReplace_no_match (l : List Extension) (outerTypes : List Nat)
    (h : ∀ e ∈ l, outerTypes.contains e.extension_type = false) :
    generateAndReplaceOuterExtensions l outerTypes = l := by
  unfold generateAndReplaceOuterExtensions
  rw [List.filter_eq_nil_iff.2 (by
    intro a ha
    rw [h a ha]
    simp)]
  rfl

/-- Dropping leading zeroes of a zero run consumes it entirely. -/
theorem dropWhile_zero_replicate (n : Nat) :
    (List.replicate n 0).dropWhile (fun b => b == 0) = [] := by
  induction n with
  | zero => rfl
  | succ k ih =>
      rw [List.replicate_succ, List.dropWhile_cons]
      simpa using ih

/-- Substitution undoes `generateAndReplaceOuterExtensions` on a
contiguous outer-listed block, even with extra outer extensions
appended after the referents. -/
theorem substitute_genReplace (pre mid post : List Extension)
    (outerTypes : List Nat) (outerExts extraExts : List Extension)
    (hpre : ∀ e ∈ pre, outerTypes.contains e.extension_type = false)
    (hpost : ∀ e ∈ post, outerTypes.contains e.extension_type = false)
    (hmid : ∀ e ∈ mid, outerTypes.contains e.extension_type = true)
    (hnd : ((pre ++ (mid ++ post)).map (fun e => e.extension_type)).Nodup)
    (htypes : ∀ e ∈ pre ++ (mid ++ post),
      e.extension_type ≠ encryptedClientHelloType ∧
        e.extension_type ≠ echOuterExtensionsType)
    (hfound : greedyMatch (mid.map (fun e => e.extension_type)) outerExts =
      some mid) :
    substituteOuterExtensions
      (generateAndReplaceOuterExtensions (pre ++ (mid ++ post)) outerTypes)
      (outerExts ++ extraExts) = .ok (pre ++ (mid ++ post)) := by
  have hpreT : ∀ e ∈ pre, e.extension_type ≠ echOuterExtensionsType :=
    fun e he => (htypes e (List.mem_append_left _ he)).2
  have hpostT : ∀ e ∈ post, e.extension_type ≠ echOuterExtensionsType :=
    fun e he =>
      (htypes e (List.mem_append_right _ (List.mem_append_right _ he))).2
  cases mid with
  | nil =>
      have hallT : ∀ e ∈ pre ++ ([] ++ post),
          e.extension_type ≠ echOuterExtensionsType := by
        intro e he
        rcases List.mem_append.1 he with h | h
        · exact hpreT e h
        · exact hpostT e (by simpa using h)
      rw [genReplace_no_match _ _ (by
        intro e he
        rcases List.mem_append.1 he with h | h
        · exact hpre e h
        · exact hpost e (by simpa using h))]
      unfold substituteOuterExtensions
      rw [substituteAux_ok (outerExts ++ extraExts) _ []
        (fun e he hty => absurd hty (hallT e he))
        (by rw [flattenTypes_no_refs _ hallT]; exact hnd)
        (by intro t _ h; simp at h)
        (by rw [refsLists_no_refs _ hallT]; intro ts h; simp at h)]
      rw [specExpansion_no_refs _ _ hallT]
  | cons m ms =>
      have hmidT : ∀ e ∈ m :: ms, e.extension_type ≠ echOuterExtensionsType :=
        fun e he =>
          (htypes e (List.mem_append_right _ (List.mem_append_left _ he))).2
      rw [genReplace_contiguous pre (m :: ms) post outerTypes hpre hpost hmid
        hnd hmidT (List.cons_ne_nil m ms)]
      have hort : outerRefTypes
          ⟨echOuterExtensionsType,
            .outerList ((m :: ms).map (fun e => e.extension_type))⟩ =
          some ((m :: ms).map (fun e => e.extension_type)) :=
        outerRefTypes_outerList _ _ (by simp)
      have hgrow := greedyMatch_append
        ((m :: ms).map (fun e => e.extension_type)) outerExts extraExts
        (m :: ms) hfound
      have hwf : wellFormedRefs (pre ++
          ⟨echOuterExtensionsType,
            .outerList ((m :: ms).map (fun e => e.extension_type))⟩ :: post) := by
        intro e he hty
        rcases List.mem_append.1 he with h | h
        · exact absurd hty (hpreT e h)
        · rcases List.mem_cons.1 h with rfl | h'
          · exact ⟨(m :: ms).map (fun e => e.extension_type), rfl⟩
          · exact absurd hty (hpostT e h')
      have hndflat : (flattenTypes (pre ++
          ⟨echOuterExtensionsType,
            .outerList ((m :: ms).map (fun e => e.extension_type))⟩ ::
            post)).Nodup := by
        rw [flattenTypes_append, flattenTypes_cons, hort]
        dsimp only
        rw [flattenTypes_no_refs pre hpreT, flattenTypes_no_refs post hpostT,
          List.cons_append]
        refine List.perm_middle.symm.nodup ?_
        rw [List.nodup_cons]
        constructor
        · intro hm
          rw [← List.map_append, ← List.map_append] at hm
          obtain ⟨e, he, hty⟩ := List.mem_map.1 hm
          exact (htypes e he).2 hty
        · rw [← List.map_append, ← List.map_append]
          exact hnd
      have hrefs : ∀ ts ∈ refsLists (pre ++
          ⟨echOuterExtensionsType,
            .outerList ((m :: ms).map (fun e => e.extension_type))⟩ :: post),
          encryptedClientHelloType ∉ ts ∧
            ∃ es, greedyMatch ts (outerExts ++ extraExts) = some es := by
        intro ts hts
        rw [refsLists_append, refsLists_cons, hort,
          refsLists_no_refs pre hpreT, refsLists_no_refs post hpostT] at hts
        simp only [List.nil_append, List.mem_singleton] at hts
        subst hts
        constructor
        · intro hm
          obtain ⟨e, he, hty⟩ := List.mem_map.1 hm
          exact (htypes e
            (List.mem_append_right _ (List.mem_append_left _ he))).1 hty
        · exact ⟨m :: ms, hgrow⟩
      unfold substituteOuterExtensions
      rw [substituteAux_ok (outerExts ++ extraExts) _ [] hwf hndflat
        (by intro t _ h; simp at h) hrefs]
      rw [specExpansion_append, specExpansion_cons, hort]
      dsimp only
      rw [hgrow]
      rw [specExpansion_no_refs pre _ hpreT, specExpansion_no_refs post _ hpostT]
      rfl

/-- Wire-level decryption of a payload sealed against the
reconstructible AAD: open, decode, strip padding, substitute. -/
theorem decryptECHWithContext_ok (outer : ClientHello)
    (tailExts : List Extension) (innerCopy : ClientHello) (padding : Nat)
    (ctx : HpkeContextModel) (E : OuterECHClientHello)
    (expanded : List Extension)
    (houter : ∀ e ∈ outer.extensions,
      e.extension_type ≠ encryptedClientHelloType)
    (hpayload : E.payload = hpkeSeal ctx
      (encodeCH
        { outer with
          extensions := outer.extensions ++
            encodeECHExt
              { E with
                payload := List.replicate
                  ((encodeCH innerCopy ++
                    List.replicate padding 0).length + ctx.overhead) 0 } ::
              tailExts })
      (encodeCH innerCopy ++ List.replicate padding 0))
    (hsubst : substituteOuterExtensions innerCopy.extensions
      (outer.extensions ++ encodeECHExt E :: tailExts) = .ok expanded) :
    decryptECHWithContext
      { outer with
        extensions := outer.extensions ++ encodeECHExt E :: tailExts }
      E.payload ctx =
      .ok { innerCopy with
        legacy_session_id := outer.legacy_session_id,
        extensions := expanded } := by
  have hlen : E.payload.length =
      (encodeCH innerCopy ++ List.replicate padding 0).length +
        ctx.overhead := by
    rw [hpayload, hpkeSeal_length]
  unfold decryptECHWithContext makeClientHelloOuterForAad
  dsimp only
  rw [zeroFirstEchPayload_wire outer.extensions houter E tailExts]
  dsimp only
  rw [hlen]
  rw [hpayload, hpkeOpen_seal]
  dsimp only
  rw [decodeCH_enc]
  dsimp only
  rw [dropWhile_zero_replicate, if_pos rfl]
  rw [hsubst]

/-- Claim C1 (amended): when the outer-listed extensions of the inner
hello form one contiguous block, the inner hello's extension types are
distinct and include neither `encrypted_client_hello` nor
`ech_outer_extensions`, the outer hello carries no
`encrypted_client_hello` extension of its own, the two hellos share a
session id, and the referenced extensions resolve greedily to the
block itself, then decrypting (with the matching HPKE context) the
payload produced by `encryptClientHello` from the outer wire hello
(outer extensions, then the ECH extension, then the optional grease
PSK) yields exactly the original inner `ClientHello`. -/
theorem ech_roundtrip_amended
    (neg : NegotiatedECHConfig) (inner outer : ClientHello)
    (setup : SetupResultModel) (grease : Option ClientPresharedKey)
    (outerTypes : List Nat) (pre mid post : List Extension)
    (ech : OuterECHClientHello)
    (hsplit : inner.extensions = pre ++ (mid ++ post))
    (hpre : ∀ e ∈ pre, outerTypes.contains e.extension_type = false)
    (hpost : ∀ e ∈ post, outerTypes.contains e.extension_type = false)
    (hmid : ∀ e ∈ mid, outerTypes.contains e.extension_type = true)
    (hnd : (inner.extensions.map (fun e => e.extension_type)).Nodup)
    (htypes : ∀ e ∈ inner.extensions,
      e.extension_type ≠ encryptedClientHelloType ∧
        e.extension_type ≠ echOuterExtensionsType)
    (houter : ∀ e ∈ outer.extensions,
      e.extension_type ≠ encryptedClientHelloType)
    (hsid : inner.legacy_session_id = outer.legacy_session_id)
    (hfound : greedyMatch (mid.map (fun e => e.extension_type))
      outer.extensions = some mid)
    (henc : encryptClientHello neg inner outer setup grease outerTypes =
      .ok ech) :
    decryptECHWithContext
      { outer with
        extensions := outer.extensions ++ [encodeECHExt ech] ++
          (grease.map encodePskExtension).toList }
      ech.payload setup.context = .ok inner := by
  unfold encryptClientHello encryptClientHelloImpl at henc
  cases hsni : getSniLen inner with
  | error msg =>
      rw [hsni] at henc
      simp at henc
  | ok sniLen =>
      rw [hsni] at henc
      dsimp only at henc
      rw [Except.ok.injEq] at henc
      subst henc
      rw [hsplit] at hnd ⊢
      simp only [List.append_assoc, List.singleton_append]
      have hinner : inner =
          ({ legacy_session_id := outer.legacy_session_id,
             extensions := pre ++ (mid ++ post) } : ClientHello) := by
        rw [← hsid, ← hsplit]
      rw [hinner]
      refine decryptECHWithContext_ok outer _ _ _ setup.context _ _ houter
        rfl ?_
      exact substitute_genReplace pre mid post outerTypes outer.extensions _
        hpre hpost hmid hnd
        (fun e he => htypes e (by rw [hsplit]; exact he)) hfound










/-- Claim C1 (counterexample to the unamended statement): with the
outer-listed extension types 10 and 30 separated by type 20 in the
inner hello, encryption succeeds but decryption returns the inner
hello with its extensions reordered (10, 30, 20 instead of
10, 20, 30), because `generateAndReplaceOuterExtensions` collapses all
outer-listed extensions onto the position of the first one, where
`substituteOuterExtensions` later expands them as one block. -/
theorem ech_roundtrip_counterexample :
    encryptClientHello c1Neg c1Inner c1Outer c1Setup none c1OuterTypes =
      .ok c1Ech ∧
    decryptECHWithContext
      { c1Outer with
        extensions := c1Outer.extensions ++ [encodeECHExt c1Ech] }
      c1Ech.payload c1Setup.context =
      .ok ⟨[5, 5], [⟨10, .raw [1]⟩, ⟨30, .raw [3]⟩, ⟨20, .raw [2]⟩]⟩ ∧
    decryptECHWithContext
      { c1Outer with
        extensions := c1Outer.extensions ++ [encodeECHExt c1Ech] }
      c1Ech.payload c1Setup.context ≠ .ok c1Inner := by
  refine ⟨by decide, by decide, by decide⟩

/-- Witness for the amended claim C1: the contiguous variant of the
same instance round-trips exactly. -/
theorem ech_roundtrip_amended_witness :
    decryptECHWithContext
      { c1Outer with
        extensions := c1Outer.extensions ++ [encodeECHExt w1Ech] ++
          (Option.map encodePskExtension none).toList }
      w1Ech.payload c1Setup.context = .ok w1Inner :=
  ech_roundtrip_amended c1Neg w1Inner c1Outer c1Setup none c1OuterTypes
    [] [⟨10, .raw [1]⟩, ⟨30, .raw [3]⟩] [⟨20, .raw [2]⟩] w1Ech
    rfl (by decide) (by decide) (by decide) (by decide) (by decide)
    (by decide) rfl (by decide) (by decide)
